import Mathlib

/-!
Verification development for the typescript-codegen repository.

This file shallowly embeds the data model and the operations of
src/src/graphql.ts, src/src/content-model.ts and the generator module
(src/unnamed/part_004) into Lean, and proves properties of the embedding.

Conventions of the embedding:
* JS string-keyed objects (`Dict<T>` from src/src/util.ts) become
  insertion-ordered association lists with unique keys; assignment keeps the
  original position of an existing key, as JS objects do.
* Fallible code (throw / try-catch) becomes `Except String`.
* External collaborators (filesystem, glob, the GraphQL parser) become
  function-valued parameters.
* `undefined` optional fields become `Option`.
-/

set_option maxHeartbeats 1000000

namespace Codegen

/-- JS object used as a string-keyed map (src/src/util.ts, `Dict<T>`):
an insertion-ordered association list with unique keys. -/
abbrev Dict (α : Type) := List (String × α)

namespace Dict

/-- Reading `d[k]`: first (unique) binding of the key, if present. -/
def get {α : Type} : Dict α → String → Option α
  | [], _ => none
  | (k2, v) :: rest, k => if k2 = k then some v else get rest k

/-- Writing `d[k] = v`: overwrite in place if the key exists, else append. -/
def set {α : Type} : Dict α → String → α → Dict α
  | [], k, v => [(k, v)]
  | (k2, v2) :: rest, k, v =>
    if k2 = k then (k2, v) :: rest else (k2, v2) :: set rest k v

/-- `_.keys(d)` / `for k in d`: keys in insertion order. -/
def keys {α : Type} (d : Dict α) : List String := d.map (·.1)

/-- Membership of a key (JS truthiness test `if (d[k])` on dictionaries whose
values are all truthy, e.g. `Dict<boolean>` storing `true`, or object/array
values). -/
def hasKey {α : Type} (d : Dict α) (k : String) : Bool := (d.get k).isSome

end Dict

/-- `_.extend(dst, src)`: assign every binding of `src` into `dst`, in order. -/
def dictExtend {α : Type} (dst src : Dict α) : Dict α :=
  src.foldl (fun acc p => acc.set p.1 p.2) dst

/-! ## Host-type model (graphql.ts lines 312-337): TSType -/

/-- The emitted host type: `TSType = TSObject | TSNamed | TSArray |
TSIntersection`.  The `nullable` flag is `Option Bool` because the TS field is
`nullable?: boolean` and the code distinguishes `undefined` (`none`) from
`false`. -/
inductive TSType where
  | named (name : String) (nullable : Option Bool)
  | object (fields : List (String × TSType)) (nullable : Option Bool) (asNamed : Option String)
  | array (element : TSType) (nullable : Option Bool)
  | intersection (types : List TSType) (nullable : Option Bool)

/-- Read the `nullable` field of any variant. -/
def nullableOf : TSType → Option Bool
  | .named _ n => n
  | .object _ n _ => n
  | .array _ n => n
  | .intersection _ n => n

/-- Mutating assignment `t.nullable = b` (e.g. the top-level hack
`operation.nullable = false`, graphql.ts line 744). -/
def withNullable : TSType → Option Bool → TSType
  | .named nm _, b => .named nm b
  | .object f _ a, b => .object f b a
  | .array e _, b => .array e b
  | .intersection ts _, b => .intersection ts b

/-- The `t.nullable ? " | null" : ""` rendering step shared by every case of
`typeToString` (graphql.ts lines 396-418): only a present-and-true flag
renders the null union. -/
def nullSuffix (n : Option Bool) : String :=
  if n = some true then " | null" else ""

/-! ## GraphQL model

Schema types are represented by name references (`TypeRef`, which also plays
the role of the AST `TypeNode` for variable definitions) resolved against a
schema table (`TypeDef`), because real GraphQL schemas may be cyclic.
`TypeDef.other` stands for the runtime kinds for which none of the predicates
used by the code (isEnumType, isScalarType, isListType, isInputObjectType,
isObjectType) holds: unions and interfaces. -/

inductive TypeRef where
  | named (name : String)
  | list (ofType : TypeRef)
  | nonNull (ofType : TypeRef)
deriving Repr, DecidableEq

inductive TypeDef where
  | scalar (name : String)
  | enum (name : String) (values : List String)
  | inputObject (name : String) (fields : Dict TypeRef)
  | object (name : String) (fields : Dict TypeRef)
  | other (name : String)

/-- GraphQLSchema: the type table plus the three operation root types. -/
structure Schema where
  types : Dict TypeDef
  queryType : Option String
  mutationType : Option String
  subscriptionType : Option String

/-- A selection inside a selection set (SelectionSetNode.selections entries).
A field carries its optional sub-selection set directly as an optional list. -/
inductive Selection where
  | field (name : String) (aliasName : Option String) (selectionSet : Option (List Selection))
  | fragmentSpread (name : String)
  | inlineFragment

abbrev SelectionSet := List Selection

/-- `aliasOrName` (graphql.ts lines 432-434). -/
def aliasOrName (name : String) (aliasName : Option String) : String :=
  match aliasName with
  | some a => a
  | none => name

/-- FragmentDefinitionNode (the parts the code reads).  `loc` abstracts the
AST location to the source name used in error reporting. -/
structure FragmentDef where
  name : String
  typeCondition : String
  selectionSet : SelectionSet
  loc : Option String

inductive OpKind where
  | query
  | mutation
  | subscription
deriving Repr, DecidableEq

/-- OperationDefinitionNode (the parts the code reads). -/
structure OperationDef where
  name : String
  operation : OpKind
  variableDefinitions : List (String × TypeRef)
  selectionSet : SelectionSet
  loc : Option String

/-- DefinitionNode: the two named definition kinds handled by resolveTypes,
plus a catch-all for definitions it skips. -/
inductive Definition where
  | operation (op : OperationDef)
  | fragment (frag : FragmentDef)
  | other

/-- A GraphQL document: concatenated list of definitions (concatAST). -/
abbrev Document := List Definition

/-- Entry of the `fragments` dictionary of resolveTypes. -/
structure FragEntry where
  type : TSType
  node : FragmentDef

/-- Entry of the `operations` dictionary of resolveTypes. -/
structure OpEntry where
  operation : TSType
  variablesType : TSType
  node : OperationDef

/-- Result of resolveTypes (graphql.ts lines 799-804). -/
structure ResolveResult where
  usedNamedTypes : Dict Bool
  operations : Dict OpEntry
  fragments : Dict FragEntry
  fragmentDeps : Dict (List String)

/-- Lexicographic code-point comparison (the order of the JS string sorts the
source relies on: `_.keys(..).sort()` and `_.sortBy`). -/
def charListLe : List Char → List Char → Bool
  | [], _ => true
  | _ :: _, [] => false
  | c :: cs, d :: ds =>
    if c.toNat < d.toNat then true
    else if d.toNat < c.toNat then false
    else charListLe cs ds

def strLe (a b : String) : Bool := charListLe a.data b.data

/-- `sortDictValues` (graphql.ts lines 528-537): entries by sorted key.
The `{name, value}` records become pairs. -/
def insertSorted (x : String) : List String → List String
  | [] => [x]
  | y :: ys => if strLe x y then x :: y :: ys else y :: insertSorted x ys

def sortStrings (l : List String) : List String :=
  l.foldr insertSorted []

def sortDictValues {α : Type} (d : Dict α) : List (String × α) :=
  (sortStrings (d.keys)).filterMap (fun k => (d.get k).map (fun v => (k, v)))

/-- Result of resolveTypesSorted (graphql.ts lines 539-548). -/
structure ResolveSortedResult where
  usedNamedTypesSorted : List (String × Bool)
  fragmentsSorted : List (String × FragEntry)
  operationsSorted : List (String × OpEntry)
  usedNamedTypes : Dict Bool
  operations : Dict OpEntry
  fragments : Dict FragEntry
  fragmentDeps : Dict (List String)

/-- ImportedFragment (graphql.ts lines 52-57). -/
structure ImportedFragment where
  name : String
  path : String
  fragment : FragEntry
  context : ResolveSortedResult

/-- builtInScalarMap (graphql.ts lines 436-442). -/
def builtInScalarMap : Dict String :=
  [("String", "string"), ("Int", "number"), ("Float", "number"),
   ("Boolean", "boolean"), ("ID", "string")]

/-! ## convertType (graphql.ts lines 444-526)

The selection-set conversion.  The source builds a mutable `obj` whose
`fields` keep growing while `out` may become an intersection that holds `obj`
as its last member; each fragment spread is inserted at the *front* of the
intersection member list via `splice(0, 0, ...)` and clears `obj.nullable`.
`convertSelectionsF` models the loop over `ss.selections` with accumulators:
`fields` (the growing `obj.fields`), `spreadsRev` (the intersection member
names, most recent first, i.e. exactly the splice-to-front order) and
`objNullable` (the current `obj.nullable`).  `convertInputFieldsF` models the
`_.forEach(inputFields, ...)` loop of the input-object expansion.  The
`JSON.stringify(fragment.type)` dump inside the invalid-reference message is
abbreviated to a fixed string (error text only, never inspected).

The mutual recursion is by structural recursion on a fuel argument so that
the definitions compute; the wrapper below supplies a fuel large enough that
the artificial exhaustion branch is never taken (the source recursion always
terminates because selection sets are finite trees). -/

mutual

def convertTypeF (sch : Schema) (fragments : Dict FragEntry) (imports : Dict ImportedFragment) :
    Nat → TypeRef → Option SelectionSet → Bool → Bool → Except String TSType
  | 0, _, _, _, _ => .error "convertType: recursion limit exceeded"
  | Nat.succ fuel, t, ss, nullable, expandNamedInput =>
    match t with
    | .nonNull ofType => convertTypeF sch fragments imports fuel ofType ss false false
    | .list ofType =>
      match convertTypeF sch fragments imports fuel ofType ss true false with
      | .error e => .error e
      | .ok element => .ok (.array element (some nullable))
    | .named n =>
      match sch.types.get n with
      | some (.enum _ _) => .ok (.named n (some nullable))
      | some (.scalar _) =>
        match builtInScalarMap.get n with
        | none => .ok (.named "ArbitraryObjectType" (some nullable))
        | some nm => .ok (.named nm (some nullable))
      | some (.inputObject _ inputFields) =>
        if expandNamedInput then
          match convertInputFieldsF sch fragments imports fuel inputFields [] with
          | .error e => .error e
          | .ok fields => .ok (.object fields (some nullable) none)
        else .ok (.named n (some nullable))
      | some (.object _ fieldTypes) =>
        match ss with
        | none => .error "should not be undefined"
        | some [.fragmentSpread fn] => .ok (.named (fn ++ "Fragment") (some nullable))
        | some sels =>
          match convertSelectionsF sch fragments imports fuel fieldTypes sels [] [] (some nullable) with
          | .error e => .error e
          | .ok (fields, spreadsRev, objNullable) =>
            let obj : TSType := .object fields objNullable none
            match spreadsRev with
            | [] => .ok obj
            | _ :: _ =>
              .ok (.intersection
                (spreadsRev.map (fun fn => TSType.named (fn ++ "Fragment") none) ++ [obj])
                (some nullable))
      | _ => .ok (.named "<unknown>" none)
termination_by structural fuel => fuel

def convertSelectionsF (sch : Schema) (fragments : Dict FragEntry) (imports : Dict ImportedFragment) :
    Nat → Dict TypeRef → List Selection → List (String × TSType) → List String → Option Bool →
    Except String (List (String × TSType) × List String × Option Bool)
  | 0, _, _, _, _, _ => .error "convertType: recursion limit exceeded"
  | Nat.succ fuel, fieldTypes, sels, fields, spreadsRev, objNullable =>
    match sels with
    | [] => .ok (fields, spreadsRev, objNullable)
    | sel :: rest =>
      match sel with
      | .field nm aliasName selectionSet =>
        match fieldTypes.get nm with
        | none => .error ("TypeError: cannot read type of undefined field " ++ nm)
        | some ft =>
          match convertTypeF sch fragments imports fuel ft selectionSet true false with
          | .error e => .error e
          | .ok v =>
            convertSelectionsF sch fragments imports fuel fieldTypes rest
              (Dict.set fields (aliasOrName nm aliasName) v) spreadsRev objNullable
      | .fragmentSpread fn =>
        match (match fragments.get fn with
               | some fr => some fr.type
               | none => (imports.get fn).map (fun (i : ImportedFragment) => i.fragment.type)) with
        | some (.intersection _ _) =>
          convertSelectionsF sch fragments imports fuel fieldTypes rest fields (fn :: spreadsRev) none
        | some (.object _ _ _) =>
          convertSelectionsF sch fragments imports fuel fieldTypes rest fields (fn :: spreadsRev) none
        | some _ => .error ("invalid fragment reference: " ++ fn ++ " (invalid type)")
        | none => .error ("invalid fragment reference: " ++ fn ++ " (non-existent fragment)")
      | .inlineFragment => .error "not implemented yet"
termination_by structural fuel => fuel

def convertInputFieldsF (sch : Schema) (fragments : Dict FragEntry) (imports : Dict ImportedFragment) :
    Nat → Dict TypeRef → List (String × TSType) → Except String (List (String × TSType))
  | 0, _, _ => .error "convertType: recursion limit exceeded"
  | Nat.succ fuel, inputFields, fields =>
    match inputFields with
    | [] => .ok fields
    | (nm, ft) :: rest =>
      match convertTypeF sch fragments imports fuel ft none true false with
      | .error e => .error e
      | .ok v => convertInputFieldsF sch fragments imports fuel rest (Dict.set fields nm v)
termination_by structural fuel => fuel

end

/-- convertType (graphql.ts lines 444-526).  `fuel` bounds the recursion
depth; any bound above the (finite) depth of the source recursion gives the
source behavior, and exhaustion is an explicit error. -/
def convertType (sch : Schema) (fuel : Nat) (t : TypeRef) (ss : Option SelectionSet)
    (fragments : Dict FragEntry) (imports : Dict ImportedFragment)
    (nullable : Bool := true) (expandNamedInput : Bool := false) : Except String TSType :=
  convertTypeF sch fragments imports fuel t ss nullable expandNamedInput

/-! ## resolveTypes (graphql.ts lines 666-805) -/

/-- ImportsRawData (graphql.ts lines 59-66). -/
structure ImportsRawData where
  usedNamedTypes : Dict Bool
  fragmentDeps : Dict (List String)
  fragments : Dict FragEntry

/-- Imports (graphql.ts lines 68-74). -/
structure Imports where
  loadedImports : List ImportedFragment
  loadedImportsMap : Dict ImportedFragment
  rawImportData : List ImportsRawData
  prefixMap : Dict String
  embedImports : Bool

/-- The string value of OperationTypeNode (used in the missing-root error). -/
def opKindString : OpKind → String
  | .query => "query"
  | .mutation => "mutation"
  | .subscription => "subscription"

/-- Entry of the `namedDefinitions` working list (graphql.ts line 680). -/
structure NamedDefinition where
  name : String
  defn : Definition
  resolved : Bool

/-- The four dictionaries the fixpoint loop mutates. -/
structure RState where
  usedNamedTypes : Dict Bool
  fragmentDeps : Dict (List String)
  fragments : Dict FragEntry
  operations : Dict OpEntry

/-- Name and AST kind string of a named definition. -/
def definitionName : Definition → Option (String × String)
  | .operation op => some (op.name, "OperationDefinition")
  | .fragment fr => some (fr.name, "FragmentDefinition")
  | .other => none

def definitionLoc : Definition → Option String
  | .operation op => op.loc
  | .fragment fr => fr.loc
  | .other => none

/-- Lines 679-688: collect operation and fragment definitions in document
order, rejecting duplicate names. -/
def buildNamedDefinitions : Document → Dict Bool → Except String (List NamedDefinition)
  | [], _ => .ok []
  | d :: rest, nameDedup =>
    match definitionName d with
    | none => buildNamedDefinitions rest nameDedup
    | some (nm, kind) =>
      if nameDedup.hasKey nm then
        .error ("definition \"" ++ nm ++ "\" (" ++ kind ++ ") already exists")
      else
        match buildNamedDefinitions rest (nameDedup.set nm true) with
        | .error e => .error e
        | .ok defs => .ok ({ name := nm, defn := d, resolved := false } :: defs)

/-- The callback of graphql.ts lines 731-733 / 755-757: record enum types. -/
def enumMark : TypeDef → Option String
  | .enum n _ => some n
  | _ => none

/-- The callback of graphql.ts lines 791-795: record input objects and enums. -/
def enumOrInputMark : TypeDef → Option String
  | .enum n _ => some n
  | .inputObject n _ => some n
  | _ => none

/-! walkType (graphql.ts lines 339-367), specialised to the marking callbacks
above (the only callbacks the code passes).  The source recursion can diverge
on cyclic input-object types, so the model carries fuel; exhaustion becomes an
error.  On a failed definition the source keeps the markings made before the
exception while this model drops them; they are re-added identically when the
definition later resolves and discarded when the run aborts, so no property
proved below observes the difference. -/

mutual

def walkType (sch : Schema) (mark : TypeDef → Option String) :
    Nat → TypeRef → Option SelectionSet → Dict Bool → Except String (Dict Bool)
  | 0, _, _, _ => .error "walkType: recursion limit exceeded"
  | Nat.succ fuel, .nonNull ofType, ss, acc => walkType sch mark fuel ofType ss acc
  | Nat.succ fuel, .list ofType, ss, acc => walkType sch mark fuel ofType ss acc
  | Nat.succ fuel, .named n, ss, acc =>
    match sch.types.get n with
    | none => .ok acc
    | some td =>
      let acc2 := match mark td with
                  | some nm => acc.set nm true
                  | none => acc
      match td with
      | .inputObject _ fields => walkInputFields sch mark fuel fields acc2
      | .object _ fieldTypes =>
        match ss with
        | none => .error "should not be undefined"
        | some sels => walkSelections sch mark fuel fieldTypes sels acc2
      | _ => .ok acc2
termination_by structural fuel _ _ _ => fuel

def walkInputFields (sch : Schema) (mark : TypeDef → Option String) :
    Nat → Dict TypeRef → Dict Bool → Except String (Dict Bool)
  | 0, _, _ => .error "walkType: recursion limit exceeded"
  | Nat.succ fuel, fields, acc =>
    match fields with
    | [] => .ok acc
    | (_, ft) :: rest =>
      match walkType sch mark fuel ft none acc with
      | .error e => .error e
      | .ok acc2 => walkInputFields sch mark fuel rest acc2
termination_by structural fuel _ _ => fuel

def walkSelections (sch : Schema) (mark : TypeDef → Option String) :
    Nat → Dict TypeRef → List Selection → Dict Bool → Except String (Dict Bool)
  | 0, _, _, _ => .error "walkType: recursion limit exceeded"
  | Nat.succ fuel, fieldTypes, sels, acc =>
    match sels with
    | [] => .ok acc
    | .field nm _ subss :: rest =>
      match fieldTypes.get nm with
      | none => .error ("TypeError: cannot read type of undefined field " ++ nm)
      | some ft =>
        match walkType sch mark fuel ft subss acc with
        | .error e => .error e
        | .ok acc2 => walkSelections sch mark fuel fieldTypes rest acc2
    | .fragmentSpread _ :: rest => walkSelections sch mark fuel fieldTypes rest acc
    | .inlineFragment :: rest => walkSelections sch mark fuel fieldTypes rest acc
termination_by structural fuel _ _ _ => fuel

end

/-- convertTypeNode (graphql.ts lines 420-430). -/
def convertTypeNode (t : TypeRef) (nullable : Bool := true) : TSType :=
  match t with
  | .list ofType => .array (convertTypeNode ofType true) (some nullable)
  | .named nm =>
    match builtInScalarMap.get nm with
    | some b => .named b (some nullable)
    | none => .named nm (some nullable)
  | .nonNull ofType => convertTypeNode ofType false

/-- walkTypeNode (graphql.ts lines 369-374) with the callback of line 738
that records every named type node in `usedNamedTypes`. -/
def walkTypeNodeNames (t : TypeRef) (acc : Dict Bool) : Dict Bool :=
  match t with
  | .named nm => acc.set nm true
  | .list ofType => walkTypeNodeNames ofType acc
  | .nonNull ofType => walkTypeNodeNames ofType acc

mutual

def extractFragmentDepsF : Nat → Option SelectionSet → Dict Bool → Except String (Dict Bool)
  | 0, _, _ => .error "extractFragmentDeps: recursion limit exceeded"
  | Nat.succ fuel, ss, deps =>
    match ss with
    | none => .ok deps
    | some sels => extractFragmentDepsListF fuel sels deps
termination_by structural fuel _ _ => fuel

def extractFragmentDepsListF : Nat → List Selection → Dict Bool → Except String (Dict Bool)
  | 0, _, _ => .error "extractFragmentDeps: recursion limit exceeded"
  | Nat.succ fuel, sels, deps =>
    match sels with
    | [] => .ok deps
    | .field _ _ subss :: rest =>
      match extractFragmentDepsF fuel subss deps with
      | .error e => .error e
      | .ok deps2 => extractFragmentDepsListF fuel rest deps2
    | .fragmentSpread nm :: rest => extractFragmentDepsListF fuel rest (deps.set nm true)
    | .inlineFragment :: _ => .error "not implemented yet"
termination_by structural fuel _ _ => fuel

end

/-- extractFragmentDeps (graphql.ts lines 620-637); `fuel` bounds the
recursion depth, which shrinks the selection tree at every step. -/
def extractFragmentDeps (fuel : Nat) (ss : Option SelectionSet) (deps : Dict Bool) :
    Except String (Dict Bool) :=
  extractFragmentDepsF fuel ss deps

/-- One iteration body of the fixpoint loop (the try-block, graphql.ts lines
708-769): convert a single definition against the current state. -/
def resolveDef (sch : Schema) (wfuel : Nat) (importedFragments : Dict ImportedFragment)
    (st : RState) (d : Definition) : Except String RState :=
  match d with
  | .other => .ok st
  | .operation op =>
    let rootAndName : Option String × String :=
      match op.operation with
      | .mutation => (sch.mutationType, op.name ++ "Mutation")
      | .query => (sch.queryType, op.name ++ "Query")
      | .subscription => (sch.subscriptionType, op.name ++ "Subscription")
    match rootAndName.1 with
    | none => .error ("missing " ++ opKindString op.operation ++ " type")
    | some rootName =>
      match walkType sch enumMark wfuel (.named rootName) (some op.selectionSet) st.usedNamedTypes with
      | .error e => .error e
      | .ok used1 =>
        let varStep := op.variableDefinitions.foldl
          (fun (acc : Dict TSType × Dict Bool) vd =>
            (Dict.set acc.1 vd.1 (convertTypeNode vd.2 true), walkTypeNodeNames vd.2 acc.2))
          ([], used1)
        match convertType sch wfuel (.named rootName) (some op.selectionSet) st.fragments importedFragments true false with
        | .error e => .error e
        | .ok operationType =>
          .ok { st with
                usedNamedTypes := varStep.2,
                operations := st.operations.set rootAndName.2
                  { operation := withNullable operationType (some false),
                    variablesType := .object varStep.1 none none,
                    node := op } }
  | .fragment fr =>
    match sch.types.get fr.typeCondition with
    | none => .ok st
    | some _ =>
      match walkType sch enumMark wfuel (.named fr.typeCondition) (some fr.selectionSet) st.usedNamedTypes with
      | .error e => .error e
      | .ok used1 =>
        match convertType sch wfuel (.named fr.typeCondition) (some fr.selectionSet) st.fragments importedFragments true false with
        | .error e => .error e
        | .ok ty =>
          match extractFragmentDeps wfuel (some fr.selectionSet) [] with
          | .error e => .error e
          | .ok deps =>
            .ok { st with
                  usedNamedTypes := used1,
                  fragments := st.fragments.set fr.name
                    { type := withNullable ty (some false), node := fr },
                  fragmentDeps := st.fragmentDeps.set fr.name (sortStrings deps.keys) }

/-- One full pass over `namedDefinitions` (graphql.ts lines 704-778).
Returns the updated list, the updated state, and the errors recorded during
this pass; a definition without a source location rethrows, aborting the
whole resolution (line 774). -/
def runPass (sch : Schema) (wfuel : Nat) (importedFragments : Dict ImportedFragment) :
    List NamedDefinition → RState → Except String (List NamedDefinition × RState × List String)
  | [], st => .ok ([], st, [])
  | nd :: rest, st =>
    if nd.resolved then
      match runPass sch wfuel importedFragments rest st with
      | .error e => .error e
      | .ok (ds, st2, errs) => .ok (nd :: ds, st2, errs)
    else
      match resolveDef sch wfuel importedFragments st nd.defn with
      | .ok st1 =>
        match runPass sch wfuel importedFragments rest st1 with
        | .error e => .error e
        | .ok (ds, st2, errs) => .ok ({ nd with resolved := true } :: ds, st2, errs)
      | .error e =>
        match definitionLoc nd.defn with
        | none => .error e
        | some loc =>
          match runPass sch wfuel importedFragments rest st with
          | .error e2 => .error e2
          | .ok (ds, st2, errs) =>
            .ok ({ nd with resolved := false } :: ds, st2, (loc ++ " " ++ e) :: errs)

/-- `_.sumBy(namedDefinitions, d => d.resolved ? 0 : 1)` (lines 701, 780). -/
def countUnresolved (defs : List NamedDefinition) : Nat :=
  (defs.filter (fun d => !d.resolved)).length

/-- The `while (true)` fixpoint loop (graphql.ts lines 700-785), indexed by
the number of remaining iterations.  `resolveTypes` runs it with fuel
`countUnresolved defs + 1`, which is always enough: a completed pass can only
shrink the unresolved count (countUnresolved_runPass_le below) and the loop body aborts whenever
the count fails to shrink yet is nonzero — the fixpoint-termination theorem
below proves the `none` (fuel exhausted) case unreachable at that fuel. -/
def resolveLoopF (sch : Schema) (wfuel : Nat) (imp : Dict ImportedFragment) :
    Nat → List NamedDefinition → RState → Option (Except String RState)
  | 0, _, _ => none
  | Nat.succ n, defs, st =>
    match runPass sch wfuel imp defs st with
    | .error e => some (.error e)
    | .ok (ds, st2, errs) =>
      if countUnresolved defs = countUnresolved ds ∧ countUnresolved defs ≠ 0 then
        some (.error ("failed to resolve types: " ++ String.intercalate "\n" errs))
      else if countUnresolved ds = 0 then some (.ok st2)
      else resolveLoopF sch wfuel imp n ds st2

/-- Lines 787-797: the final chase over the snapshot of used named types. -/
def chaseKeys (sch : Schema) (wfuel : Nat) :
    List String → Dict Bool → Except String (Dict Bool)
  | [], used => .ok used
  | n :: rest, used =>
    match sch.types.get n with
    | none => chaseKeys sch wfuel rest used
    | some _ =>
      match walkType sch enumOrInputMark wfuel (.named n) none used with
      | .error e => .error e
      | .ok used2 => chaseKeys sch wfuel rest used2

/-- resolveTypes (graphql.ts lines 666-805). -/
def resolveTypes (sch : Schema) (wfuel : Nat) (doc : Document) (imports : Option Imports) :
    Except String ResolveResult :=
  match buildNamedDefinitions doc [] with
  | .error e => .error e
  | .ok defs =>
    let st0 : RState :=
      { usedNamedTypes := [], fragmentDeps := [], fragments := [], operations := [] }
    let seeded : Dict ImportedFragment × RState :=
      match imports with
      | none => ([], st0)
      | some imp =>
        if imp.embedImports then
          ([], imp.rawImportData.foldl (fun st data =>
            { st with usedNamedTypes := dictExtend st.usedNamedTypes data.usedNamedTypes,
                      fragmentDeps := dictExtend st.fragmentDeps data.fragmentDeps,
                      fragments := dictExtend st.fragments data.fragments }) st0)
        else (imp.loadedImportsMap, st0)
    match resolveLoopF sch wfuel seeded.1 (countUnresolved defs + 1) defs seeded.2 with
    | none => .error "resolveTypes: loop iteration limit exceeded"
    | some (.error e) => .error e
    | some (.ok st) =>
      match chaseKeys sch wfuel st.usedNamedTypes.keys st.usedNamedTypes with
      | .error e => .error e
      | .ok used =>
        .ok { usedNamedTypes := used, operations := st.operations,
              fragments := st.fragments, fragmentDeps := st.fragmentDeps }

/-- resolveTypesSorted (graphql.ts lines 539-548). -/
def resolveTypesSorted (sch : Schema) (wfuel : Nat) (doc : Document)
    (imports : Option Imports) : Except String ResolveSortedResult :=
  match resolveTypes sch wfuel doc imports with
  | .error e => .error e
  | .ok vals =>
    .ok { usedNamedTypesSorted := sortDictValues vals.usedNamedTypes,
          fragmentsSorted := sortDictValues vals.fragments,
          operationsSorted := sortDictValues vals.operations,
          usedNamedTypes := vals.usedNamedTypes,
          operations := vals.operations,
          fragments := vals.fragments,
          fragmentDeps := vals.fragmentDeps }

/-! ## String helpers (JS built-ins used by graphql.ts) -/

/-- Lower-case hex digit. -/
def hexDigit (n : Nat) : Char :=
  if n < 10 then Char.ofNat (48 + n) else Char.ofNat (87 + n)

def jsonEscapeChar (c : Char) : List Char :=
  if c = '"' then ['\\', '"']
  else if c = '\\' then ['\\', '\\']
  else if c = '\n' then ['\\', 'n']
  else if c = '\r' then ['\\', 'r']
  else if c = '\t' then ['\\', 't']
  else if c.toNat = 8 then ['\\', 'b']
  else if c.toNat = 12 then ['\\', 'f']
  else if c.toNat < 32 then ['\\', 'u', '0', '0', hexDigit (c.toNat / 16), hexDigit (c.toNat % 16)]
  else [c]

/-- JSON.stringify applied to a string value. -/
def jsonStr (s : String) : String :=
  ⟨'"' :: (s.data.map jsonEscapeChar).flatten ++ ['"']⟩

def replaceFirstAux (key val : List Char) : List Char → List Char
  | [] => if List.isPrefixOf key [] then val else []
  | c :: rest =>
    if List.isPrefixOf key (c :: rest) then val ++ List.drop key.length (c :: rest)
    else c :: replaceFirstAux key val rest

/-- JS `s.replace(key, val)` with a plain string pattern: replaces the first
occurrence only ($-patterns in the replacement are not modeled). -/
def replaceFirst (s key val : String) : String :=
  ⟨replaceFirstAux key.data val.data s.data⟩

def splitOnCharAux (sep : Char) : List Char → List Char → List (List Char)
  | [], acc => [acc.reverse]
  | c :: rest, acc =>
    if c = sep then acc.reverse :: splitOnCharAux sep rest []
    else splitOnCharAux sep rest (c :: acc)

/-- lodash `_.split(s, sep, limit)` for the single-character separators the
source uses ("=" and ":"): String.prototype.split semantics, truncated to the
first `limit` pieces. -/
def jsSplit (s : String) (sep : Char) (limit : Nat) : List String :=
  ((splitOnCharAux sep s.data []).map (fun l => ⟨l⟩)).take limit

/-! ## Import-directive lexer (graphql.ts lines 240-266) -/

/-- ImportData (graphql.ts line 45). -/
inductive ImportData where
  | all
  | someNames (names : List String)

/-- ImportSpec (graphql.ts lines 235-238); `from` is a Lean keyword, hence
`from_`. -/
structure ImportSpec where
  from_ : String
  what : ImportData

/-- The regex class \s (whitespace). -/
def isJsSpace (c : Char) : Bool :=
  c = ' ' || c = '\t' || c = '\n' || c = '\r' || c.toNat = 11 || c.toNat = 12

/-- The regex class [a-zA-Z0-9_]. -/
def isIdentChar (c : Char) : Bool :=
  (c ≥ 'a' && c ≤ 'z') || (c ≥ 'A' && c ≤ 'Z') || (c ≥ '0' && c ≤ '9') || c = '_'

/-- Consume an exact literal. -/
def expectLit : List Char → List Char → Option (List Char)
  | [], l => some l
  | _ :: _, [] => none
  | c :: cs, x :: xs => if c = x then expectLit cs xs else none

/-- \s* -/
def skipWs (l : List Char) : List Char := l.dropWhile isJsSpace

/-- \s+ -/
def skipWs1 (l : List Char) : Option (List Char) :=
  match l with
  | [] => none
  | c :: rest => if isJsSpace c then some (skipWs rest) else none

/-- [a-zA-Z0-9_]+ -/
def takeIdent (l : List Char) : Option (String × List Char) :=
  let ident := l.takeWhile isIdentChar
  if ident.isEmpty then none else some (⟨ident⟩, l.drop ident.length)

/-- "([^"]+)" -/
def takeQuoted (l : List Char) : Option (String × List Char) :=
  match l with
  | '"' :: rest =>
    let path := rest.takeWhile (· ≠ '"')
    if path.isEmpty then none
    else
      match rest.drop path.length with
      | '"' :: rest2 => some (⟨path⟩, rest2)
      | _ => none
  | _ => none

/-- Match the regex `import\s+\*\s+from\s+"([^"]+)"` at the head. -/
def matchImportAll (l : List Char) : Option (String × List Char) := do
  let l ← expectLit "import".data l
  let l ← skipWs1 l
  let l ← expectLit "*".data l
  let l ← skipWs1 l
  let l ← expectLit "from".data l
  let l ← skipWs1 l
  takeQuoted l

/-- The repetition `(?:\s*,\s*[a-zA-Z0-9_]+)*`; stops (without consuming)
when no further comma+identifier matches. -/
def takeMoreIdents (fuel : Nat) (l : List Char) (acc : List String) :
    List String × List Char :=
  match fuel with
  | 0 => (acc.reverse, l)
  | fuel + 1 =>
    match expectLit [','] (skipWs l) with
    | none => (acc.reverse, l)
    | some l3 =>
      match takeIdent (skipWs l3) with
      | none => (acc.reverse, l)
      | some (id, l5) => takeMoreIdents fuel l5 (id :: acc)

/-- Match `import\s+\{\s*([a-zA-Z0-9_]+)((?:\s*,\s*[a-zA-Z0-9_]+)*)\s*\}\s+from\s+"([^"]+)"`
at the head; yields the identifier list (the source recovers the same list
from group 2 by split/trim/compact) and the path. -/
def matchImportSome (l : List Char) : Option (List String × String × List Char) := do
  let l ← expectLit "import".data l
  let l ← skipWs1 l
  let l ← expectLit ['\x7b'] l
  let l := skipWs l
  let (first, l) ← takeIdent l
  let (more, l) := takeMoreIdents l.length l []
  let l := skipWs l
  let l ← expectLit ['\x7d'] l
  let l ← skipWs1 l
  let l ← expectLit "from".data l
  let l ← skipWs1 l
  let (path, l) ← takeQuoted l
  pure (first :: more, path, l)

/-- One /g scan: at each position try the matcher, jump past a match (the
regex lastIndex), else advance one character. -/
def scanAllImports (fuel : Nat) (l : List Char) (acc : List ImportSpec) : List ImportSpec :=
  match fuel with
  | 0 => acc.reverse
  | fuel + 1 =>
    match l with
    | [] => acc.reverse
    | _ :: rest =>
      match matchImportAll l with
      | some (path, l2) => scanAllImports fuel l2 ({ from_ := path, what := .all } :: acc)
      | none => scanAllImports fuel rest acc

def scanSomeImports (fuel : Nat) (l : List Char) (acc : List ImportSpec) : List ImportSpec :=
  match fuel with
  | 0 => acc.reverse
  | fuel + 1 =>
    match l with
    | [] => acc.reverse
    | _ :: rest =>
      match matchImportSome l with
      | some (names, path, l2) =>
        scanSomeImports fuel l2 ({ from_ := path, what := .someNames names } :: acc)
      | none => scanSomeImports fuel rest acc

/-- extractImportSpecs (graphql.ts lines 240-266): all `import *` directives
in order, then all `import { ... }` directives in order. -/
def extractImportSpecs (data : String) : List ImportSpec :=
  scanAllImports (data.data.length + 1) data.data []
    ++ scanSomeImports (data.data.length + 1) data.data []

/-! ## loadImports (graphql.ts lines 76-233) -/

/-- The filesystem and parser collaborators of loadImports: glob.sync,
fs.readFileSync (via loadGraphQLFromFile) and the graphql parse. -/
structure Env where
  globSync : String → List String
  readFile : String → String
  parseSrc : String → Document

structure IncludeAbbrev where
  key : String
  val : String

/-- Lines 86-97: parse `NAME=DIR=PREFIX` include rules into the prefix map
and the substitution list; malformed rules are skipped. -/
def parseIncludes (includes : List String) : Dict String × List IncludeAbbrev :=
  includes.foldl
    (fun acc inc =>
      match jsSplit inc '=' 3 with
      | keyName :: val :: pfxv :: _ =>
        if keyName ≠ "" ∧ val ≠ "" ∧ pfxv ≠ "" then
          ((acc.1.set ("@" ++ keyName) pfxv),
           acc.2 ++ [{ key := "@" ++ keyName, val := val }])
        else acc
      | _ => acc)
    ([], [])

/-- `_.uniq`: first occurrences, order preserved. -/
def uniqList (l : List String) : List String :=
  l.foldl (fun acc x => if acc.contains x then acc else acc ++ [x]) []

/-- Value of `fragmentWhitelistPerDir` (line 84): `Dict<boolean> | "all"`. -/
inductive Whitelist where
  | all
  | names (d : Dict Bool)

/-- Inner loop of lines 101-116 for a single dir (`break` on an `all` spec). -/
def whitelistLoop (d : String) : List ImportSpec → Dict Whitelist → Dict Whitelist
  | [], wl => wl
  | s :: rest, wl =>
    if s.from_ ≠ d then whitelistLoop d rest wl
    else
      match s.what with
      | .all => wl.set d .all
      | .someNames names =>
        let dd : Dict Bool :=
          match wl.get d with
          | some (.names m) => m
          | _ => []
        whitelistLoop d rest (wl.set d (.names (names.foldl (fun m n => m.set n true) dd)))

def buildWhitelists (uniqueDirs : List String) (specs : List ImportSpec) : Dict Whitelist :=
  uniqueDirs.foldl (fun wl d => whitelistLoop d specs wl) []

mutual

/-- recursiveCopyFragments (graphql.ts lines 639-664); returns the updated
(usedNamedTypes, dst, visited).  Fuel bounds the visited-set recursion. -/
def recursiveCopyFragments (sch : Schema) (wfuel : Nat) :
    Nat → Dict Bool → Dict FragEntry → Dict FragEntry → Dict Bool → String →
    Dict (List String) → Except String (Dict Bool × Dict FragEntry × Dict Bool)
  | 0, _, _, _, _, _, _ => .error "recursiveCopyFragments: recursion limit exceeded"
  | Nat.succ fuel, used, dst, src, visited, key, deps =>
    if visited.hasKey key then .ok (used, dst, visited)
    else
      let visited2 := visited.set key true
      match src.get key with
      | none => .ok (used, dst, visited2)
      | some f =>
        let dst2 := dst.set key f
        match (match sch.types.get f.node.typeCondition with
               | none => Except.ok used
               | some _ =>
                 walkType sch enumMark wfuel (.named f.node.typeCondition)
                   (some f.node.selectionSet) used) with
        | .error e => .error e
        | .ok used2 =>
          copyFragmentDeps sch wfuel fuel used2 dst2 src visited2 ((deps.get key).getD []) deps
termination_by structural fuel _ _ _ _ _ _ => fuel

def copyFragmentDeps (sch : Schema) (wfuel : Nat) :
    Nat → Dict Bool → Dict FragEntry → Dict FragEntry → Dict Bool → List String →
    Dict (List String) → Except String (Dict Bool × Dict FragEntry × Dict Bool)
  | 0, _, _, _, _, _, _ => .error "recursiveCopyFragments: recursion limit exceeded"
  | Nat.succ fuel, used, dst, src, visited, pending, deps =>
    match pending with
    | [] => .ok (used, dst, visited)
    | dep :: rest =>
      match recursiveCopyFragments sch wfuel fuel used dst src visited dep deps with
      | .error e => .error e
      | .ok (used2, dst2, visited2) =>
        copyFragmentDeps sch wfuel fuel used2 dst2 src visited2 rest deps
termination_by structural fuel _ _ _ _ _ _ => fuel

end

/-- Per-whitelist-key copy loop (lines 154-166); each key starts with a fresh
`visited` set. -/
def copyWhitelist (sch : Schema) (wfuel : Nat) (src : Dict FragEntry)
    (deps : Dict (List String)) :
    List String → Dict Bool → Dict FragEntry → Except String (Dict Bool × Dict FragEntry)
  | [], used, dst => .ok (used, dst)
  | key :: rest, used, dst =>
    match recursiveCopyFragments sch wfuel
        ((src.length + 2) * (deps.foldl (fun a p => a + p.2.length + 1) 2)) used dst src []
        key deps with
    | .error e => .error e
    | .ok (used2, dst2, _) => copyWhitelist sch wfuel src deps rest used2 dst2

/-- Lines 131-140: read each file, rejecting files that contain import
directives of their own; returns the bodies. -/
def loadFiles (env : Env) : List String → Except String (List String)
  | [] => .ok []
  | file :: rest =>
    let body := env.readFile file
    if (extractImportSpecs body).length > 0 then
      .error ("importing file " ++ jsonStr file
        ++ " which itself has imports, nested imports are not allowed")
    else
      match loadFiles env rest with
      | .error e => .error e
      | .ok bodies => .ok (body :: bodies)

/-- Lines 129-183 for one directory that matched: load, parse, resolve and
(in embed mode) prune to the whitelisted fragments. -/
def processDir (env : Env) (sch : Schema) (wfuel : Nat) (embedImports : Bool)
    (whitelists : Dict Whitelist) (files : List String) (d : String) :
    Except String ResolveSortedResult :=
  match loadFiles env files with
  | .error e => .error e
  | .ok bodies =>
    let doc := (bodies.map env.parseSrc).flatten
    match resolveTypesSorted sch wfuel doc none with
    | .error e => .error e
    | .ok data =>
      if embedImports then
        let data1 := { data with operations := [], operationsSorted := [] }
        match whitelists.get d with
        | some (.names wl) =>
          match copyWhitelist sch wfuel data1.fragments data1.fragmentDeps wl.keys [] [] with
          | .error e => .error e
          | .ok (newUsed, newFragments) =>
            .ok { data1 with fragments := newFragments,
                             fragmentsSorted := sortDictValues newFragments,
                             usedNamedTypes := newUsed,
                             usedNamedTypesSorted := sortDictValues newUsed }
        | _ => .ok data1
      else .ok data

/-- The loop over `uniqueDirs` (graphql.ts lines 120-187).  Faithful to the
source: the `break` at line 182 leaves the loop after the FIRST directory
that yields files, so the rest of `uniqueDirs` is never processed; a
directory without .graphql files throws at once. -/
def loadDirsLoop (env : Env) (sch : Schema) (wfuel : Nat) (embedImports : Bool)
    (whitelists : Dict Whitelist) (abbrevs : List IncludeAbbrev) :
    List String → Except String (Dict ResolveSortedResult × List ImportsRawData)
  | [] => .ok ([], [])
  | d :: _rest =>
    let dd := abbrevs.foldl (fun acc ia => replaceFirst acc ia.key ia.val) d
    let files := env.globSync (dd ++ "/**/*.graphql")
    if files.length > 0 then
      match processDir env sch wfuel embedImports whitelists files d with
      | .error e => .error e
      | .ok data =>
        .ok ([(d, data)],
             [{ fragmentDeps := data.fragmentDeps, fragments := data.fragments,
                usedNamedTypes := data.usedNamedTypes }])
    else .error ("failed resolving " ++ jsonStr d ++ " import path")

def addNames (frags : Dict FragEntry) (fromPath : String) :
    List String → Dict Bool → Except String (Dict Bool)
  | [], d => .ok d
  | name :: rest, d =>
    match frags.get name with
    | none => .error ("fragment " ++ jsonStr name ++ " not found in " ++ jsonStr fromPath)
    | some _ => addNames frags fromPath rest (d.set name true)

/-- Lines 190-203: per-path requested fragment sets. -/
def buildImportedFragments (importedData : Dict ResolveSortedResult) :
    List ImportSpec → Dict (Dict Bool) → Except String (Dict (Dict Bool))
  | [], acc => .ok acc
  | s :: rest, acc =>
    let d := (acc.get s.from_).getD []
    match importedData.get s.from_ with
    | none => .error "expected a non-null value: imported data"
    | some data =>
      match s.what with
      | .all =>
        let d2 := dictExtend d (data.fragmentsSorted.map (fun p => (p.1, true)))
        buildImportedFragments importedData rest (acc.set s.from_ d2)
      | .someNames names =>
        match addNames data.fragments s.from_ names d with
        | .error e => .error e
        | .ok d2 => buildImportedFragments importedData rest (acc.set s.from_ d2)

def addToOutMap (data : ResolveSortedResult) (path : String) :
    List String → Dict ImportedFragment → Except String (Dict ImportedFragment)
  | [], outMap => .ok outMap
  | name :: rest, outMap =>
    match outMap.get name with
    | some alreadyImported =>
      .error ("fragment " ++ jsonStr name ++ " import from " ++ jsonStr path
        ++ " and from " ++ jsonStr alreadyImported.path)
    | none =>
      match data.fragments.get name with
      | none => .error ("expected a non-null value: fragment: " ++ name)
      | some fragment =>
        addToOutMap data path rest
          (outMap.set name { name := name, path := path, fragment := fragment, context := data })

/-- Lines 205-224: assemble the name-to-import map, rejecting a fragment
imported from two paths. -/
def buildOutMap (importedData : Dict ResolveSortedResult) :
    List (String × Dict Bool) → Dict ImportedFragment → Except String (Dict ImportedFragment)
  | [], outMap => .ok outMap
  | (path, d) :: rest, outMap =>
    match importedData.get path with
    | none => .error "expected a non-null value: imported data"
    | some data =>
      match addToOutMap data path d.keys outMap with
      | .error e => .error e
      | .ok outMap2 => buildOutMap importedData rest outMap2

def insertImportedSorted (x : ImportedFragment) :
    List ImportedFragment → List ImportedFragment
  | [] => [x]
  | y :: ys => if strLe x.name y.name then x :: y :: ys else y :: insertImportedSorted x ys

/-- `_.sortBy(values, v => v.name)` (stable). -/
def sortImportedByName (l : List ImportedFragment) : List ImportedFragment :=
  l.foldr insertImportedSorted []

/-- loadImports (graphql.ts lines 76-233). -/
def loadImports (env : Env) (sch : Schema) (wfuel : Nat)
    (specs : List ImportSpec) (includes : List String) (embedImports : Bool) :
    Except String Imports :=
  let uniqueDirs := uniqList (specs.map (·.from_))
  let pmAbbrevs := parseIncludes includes
  let whitelists := if embedImports then buildWhitelists uniqueDirs specs else []
  match loadDirsLoop env sch wfuel embedImports whitelists pmAbbrevs.2 uniqueDirs with
  | .error e => .error e
  | .ok (importedData, rawImportData) =>
    match buildImportedFragments importedData specs [] with
    | .error e => .error e
    | .ok importedFragments =>
      match buildOutMap importedData importedFragments [] with
      | .error e => .error e
      | .ok outMap =>
        .ok { loadedImports := sortImportedByName (outMap.map (·.2)),
              loadedImportsMap := outMap,
              rawImportData := rawImportData,
              prefixMap := pmAbbrevs.1,
              embedImports := embedImports }

/-! ## addFragmentDepsRecursive (graphql.ts lines 584-618)

The recursive dependency collector: `deps` records keys `path:name`, where
`path` is `".."` for fragments found in the current map, the import path for
imported fragments, and the current path for unknown names.  Fuel bounds the
recursion depth (the source recursion terminates because each nested call
first records a fresh key). -/

def addFragmentDepsRecursive :
    Nat → Dict Bool → List String → Dict (List String) → Dict ImportedFragment → String →
    Option (Dict Bool)
  | _, deps, [], _, _, _ => some deps
  | 0, _, _ :: _, _, _, _ => none
  | Nat.succ fuel, deps, frag :: rest, fragsMap, imports, path =>
    match fragsMap.get frag with
    | some moreDeps =>
      let key := path ++ ":" ++ frag
      if deps.hasKey key then addFragmentDepsRecursive fuel deps rest fragsMap imports path
      else
        match addFragmentDepsRecursive fuel (deps.set key true) moreDeps fragsMap imports path with
        | none => none
        | some deps2 => addFragmentDepsRecursive fuel deps2 rest fragsMap imports path
    | none =>
      match imports.get frag with
      | some imp =>
        let key := imp.path ++ ":" ++ frag
        if deps.hasKey key then addFragmentDepsRecursive fuel deps rest fragsMap imports path
        else
          match addFragmentDepsRecursive fuel (deps.set key true)
              ((imp.context.fragmentDeps.get frag).getD [])
              imp.context.fragmentDeps imports imp.path with
          | none => none
          | some deps2 => addFragmentDepsRecursive fuel deps2 rest fragsMap imports path
      | none =>
        let key := path ++ ":" ++ frag
        if deps.hasKey key then addFragmentDepsRecursive fuel deps rest fragsMap imports path
        else
          match addFragmentDepsRecursive fuel (deps.set key true) [] fragsMap imports path with
          | none => none
          | some deps2 => addFragmentDepsRecursive fuel deps2 rest fragsMap imports path

/-! Reference semantics for the closure theorem.  A traversal node is a pair
(path, fragment name); `ctxOf` assigns to each path the dependency map the
traversal consults there (".." is the local map, an import path is that import
context map — the coherence hypotheses of the theorem state that this
assignment matches the maps the code actually threads through). -/

/-- The memo key the code records for visiting `frag` while at `p`. -/
def nodeKey (ctxOf : String → Dict (List String)) (imports : Dict ImportedFragment)
    (p frag : String) : String :=
  if (ctxOf p).hasKey frag then p ++ ":" ++ frag
  else
    match imports.get frag with
    | some imp => imp.path ++ ":" ++ frag
    | none => p ++ ":" ++ frag

/-- The child visits the code performs after recording the key. -/
def nodeChildren (ctxOf : String → Dict (List String)) (imports : Dict ImportedFragment)
    (p frag : String) : List (String × String) :=
  match (ctxOf p).get frag with
  | some moreDeps => moreDeps.map (fun d => (p, d))
  | none =>
    match imports.get frag with
    | some imp => (((imp.context.fragmentDeps.get frag).getD []).map (fun d => (imp.path, d)))
    | none => []

/-- Transitive closure of the direct and indirect fragment spreads, through
the local fragment-deps map and the import map. -/
inductive Reach (ctxOf : String → Dict (List String)) (imports : Dict ImportedFragment)
    (roots : List String) : String × String → Prop where
  | root {frag : String} : frag ∈ roots → Reach ctxOf imports roots ("..", frag)
  | step {n c : String × String} : Reach ctxOf imports roots n →
      c ∈ nodeChildren ctxOf imports n.1 n.2 → Reach ctxOf imports roots c

/-- `allDepNames[name] = true` for each sorted dep key split at the first
":" (src/unnamed/part_004 lines 132-136; lodash split with limit 2). -/
def collectDepNames (keys : List String) (allDepNames : Dict Bool) : Dict Bool :=
  keys.foldl (fun acc dep =>
    match jsSplit dep ':' 2 with
    | _ :: nm :: _ => acc.set nm true
    | _ :: [] => acc.set "undefined" true
    | [] => acc) allDepNames

def opDepNamesGo (fuel : Nat) (fragmentDeps : Dict (List String))
    (imports : Dict ImportedFragment) :
    List String → Dict Bool → Except String (List String)
  | [], allDepNames => .ok (sortStrings allDepNames.keys)
  | fragName :: rest, allDepNames =>
    match addFragmentDepsRecursive fuel [] [fragName] fragmentDeps imports ".." with
    | none => .error "addFragmentDepsRecursive: recursion limit exceeded"
    | some deps =>
      opDepNamesGo fuel fragmentDeps imports rest
        (collectDepNames (sortStrings deps.keys) allDepNames)

/-- The per-operation dependency collection of generate (src/unnamed/part_004
lines 125-141): the operation direct spreads in sorted order, one fresh
addFragmentDepsRecursive run per direct spread, one name per recorded key. -/
def operationDepNames (fuel : Nat) (op : OperationDef) (fragmentDeps : Dict (List String))
    (imports : Dict ImportedFragment) : Except String (List String) :=
  match extractFragmentDeps fuel (some op.selectionSet) [] with
  | .error e => .error e
  | .ok fragsFromOp =>
    opDepNamesGo fuel fragmentDeps imports (sortStrings fragsFromOp.keys) []

/-! ## Content-model sub-generator (src/src/content-model.ts lines 1-155) -/

structure CMEnumValue where
  label : String
  value : String

/-- ContentModelStringValidation; only `enum` is read by the generator.
The numeric bounds are JSON numbers, abstracted to Int (never read). -/
structure CMStringValidation where
  minLength : Option Int
  minLengthError : Option String
  maxLength : Option Int
  maxLengthError : Option String
  pattern : Option String
  patternError : Option String
  enum : Option (List CMEnumValue)
  defaultValue : Option String

structure CMNumberValidation where
  min : Option Int
  minError : Option String
  max : Option Int
  maxError : Option String
  integer : Option Bool

/-- NonObjectContentModelType; the `kind` enumerations are carried as plain
strings (they are validated on parse and never read by the generator). -/
inductive CMNonObject where
  | string (kind : String) (validation : Option CMStringValidation) (help : Option String)
  | datetime (kind : String) (help : Option String)
  | boolean (kind : String) (help : Option String)
  | number (kind : String) (validation : Option CMNumberValidation) (help : Option String)

/-- ContentModelObjectField = NonObjectContentModelType ∩ {name, label}. -/
structure CMField where
  type : CMNonObject
  name : String
  label : Option String

/-- ContentModelType = object | non-object. -/
inductive CMType where
  | nonObject (t : CMNonObject)
  | object (fields : List CMField) (help : Option String)

/-- ContentModelSchema: { label?, name, json }. -/
structure ContentModelSchema where
  label : Option String
  name : String
  json : CMType

/-- generateTypeFor (content-model.ts lines 124-144) on the non-object
variants.  The source `case "string"` arm falls through to `case "datetime"`
when no validation.enum is present (no break), which is why the string arm
here returns the datetime result in its none branch. -/
def generateNonObjectTypeFor (v : CMNonObject) : String :=
  match v with
  | .boolean _ _ => "ss.boolean()"
  | .string _ validation _ =>
    match validation.bind (fun va => va.enum) with
    | some e =>
      "ss.enums([" ++ String.intercalate ","
        (e.map (fun ev => jsonStr ev.value ++ " as const")) ++ "])"
    | none => "ss.string()"
  | .datetime _ _ => "ss.string()"
  | .number _ _ _ => "ss.number()"

/-- generateTypeFor (content-model.ts lines 124-144). -/
def generateTypeFor (v : CMType) : String :=
  match v with
  | .nonObject t => generateNonObjectTypeFor t
  | .object fields _ =>
    "ss.type(\x7b" ++ String.intercalate ","
      (fields.map (fun f => jsonStr f.name ++ ": " ++ generateNonObjectTypeFor f.type))
      ++ "\x7d)"

/-- generateContentModelTypescriptCode (content-model.ts lines 146-155). -/
def generateContentModelTypescriptCode (schemas : List ContentModelSchema) : String :=
  "import * as ss from \"superstruct\";\n"
    ++ "export const schemas = \x7b\n"
    ++ String.join (schemas.map (fun s => jsonStr s.name ++ ": " ++ generateTypeFor s.json ++ ",\n"))
    ++ "\x7d;\n"

/-- Modelled from the spec (section 4.G, emission): the node-to-validator
mapping stated by the specification, written with one explicit case per node
kind (no fallthrough), for the refinement proof against generateTypeFor:
strings emit a string validator, or a closed enum validator over the entry
value strings when validation.enum is present; datetimes emit a string
validator; numbers a number validator; booleans a boolean validator; objects
a record validator with each field keyed by its declared name. -/
def specNonObjectValidator (v : CMNonObject) : String :=
  match v with
  | .string _ validation _ =>
    match validation.bind (fun va => va.enum) with
    | some e =>
      "ss.enums([" ++ String.intercalate ","
        (e.map (fun ev => jsonStr ev.value ++ " as const")) ++ "])"
    | none => "ss.string()"
  | .datetime _ _ => "ss.string()"
  | .number _ _ _ => "ss.number()"
  | .boolean _ _ => "ss.boolean()"

def specValidatorFor (v : CMType) : String :=
  match v with
  | .nonObject t => specNonObjectValidator t
  | .object fields _ =>
    "ss.type(\x7b" ++ String.intercalate ","
      (fields.map (fun f => jsonStr f.name ++ ": " ++ specNonObjectValidator f.type))
      ++ "\x7d)"

/-- Modelled from the spec: the module layout of the emission (one mapping
entry per schema, keyed by the schema name). -/
def specModuleFor (schemas : List ContentModelSchema) : String :=
  "import * as ss from \"superstruct\";\n"
    ++ "export const schemas = \x7b\n"
    ++ String.join (schemas.map (fun s => jsonStr s.name ++ ": " ++ specValidatorFor s.json ++ ",\n"))
    ++ "\x7d;\n"

/-! ## Concrete fixtures used by counterexamples and witnesses -/

/-- A small schema: a query root, an object type T with two scalar fields,
the built-in String scalar, and a union-like type U (unhandled kind). -/
def exSchema : Schema :=
  { types := [("Query", .object "Query" [("menus", .named "T"), ("u", .named "U")]),
              ("T", .object "T" [("a", .named "String"), ("b", .named "String")]),
              ("String", .scalar "String"),
              ("U", .other "U")],
    queryType := some "Query", mutationType := none, subscriptionType := none }

def exFragA : FragEntry :=
  { type := .object [("a", .named "string" (some true))] (some false) none,
    node := { name := "A", typeCondition := "T",
              selectionSet := [.field "a" none none], loc := some "a.graphql" } }

def exFragB : FragEntry :=
  { type := .object [("b", .named "string" (some true))] (some false) none,
    node := { name := "B", typeCondition := "T",
              selectionSet := [.field "b" none none], loc := some "b.graphql" } }

def exFragments : Dict FragEntry := [("A", exFragA), ("B", exFragB)]

/-- The fragment-spread names of a selection list, in document order. -/
def spreadNames (sels : List Selection) : List String :=
  sels.filterMap (fun s => match s with | .fragmentSpread n => some n | _ => none)

/-- `isNonNullType` on a type reference. -/
def isNonNullRef : TypeRef → Bool
  | .nonNull _ => true
  | _ => false

/-- The `nullable` argument in effect when convertType reaches the body of a
type: peeling NonNull wrappers forces false, otherwise the caller value. -/
def effectiveNullable : TypeRef → Bool → Bool
  | .nonNull inner, _ => effectiveNullable inner false
  | _, nb => nb

/-! ## Fixtures for the loadImports claims (C1, C3) and the resolver claims -/

/-- The empty resolver state (the loop's starting state st0). -/
def rstEmpty : RState :=
  { usedNamedTypes := [], fragmentDeps := [], fragments := [], operations := [] }

/-- `fragment A on T \x7b a \x7d` as parsed from the file X/a.graphql. -/
def exFragANode : FragmentDef :=
  { name := "A", typeCondition := "T", selectionSet := [.field "a" none none],
    loc := some "X/a.graphql" }

/-- `fragment B on T \x7b b \x7d` as parsed from the file Y/b.graphql. -/
def exFragBNode : FragmentDef :=
  { name := "B", typeCondition := "T", selectionSet := [.field "b" none none],
    loc := some "Y/b.graphql" }

/-- `fragment G on Missing \x7b a \x7d`: its type condition names no schema
type. -/
def exFragGNode : FragmentDef :=
  { name := "G", typeCondition := "Missing", selectionSet := [.field "a" none none],
    loc := some "g.graphql" }

/-- Two import directories X and Y, each holding one .graphql file with one
fragment (A in X, B in Y).  readFile returns the path as a marker body; the
parser maps each marker to its parsed document. -/
def envXY : Env :=
  { globSync := fun pat =>
      if pat = "X/**/*.graphql" then ["X/a.graphql"]
      else if pat = "Y/**/*.graphql" then ["Y/b.graphql"]
      else [],
    readFile := fun f => f,
    parseSrc := fun body =>
      if body = "X/a.graphql" then [.fragment exFragANode]
      else if body = "Y/b.graphql" then [.fragment exFragBNode]
      else [] }

/-- `fragment F on T \x7b a \x7d` as found in directory X. -/
def exFragFXNode : FragmentDef :=
  { name := "F", typeCondition := "T", selectionSet := [.field "a" none none],
    loc := some "X/f.graphql" }

/-- `fragment F on T \x7b b \x7d` as found in directory Y. -/
def exFragFYNode : FragmentDef :=
  { name := "F", typeCondition := "T", selectionSet := [.field "b" none none],
    loc := some "Y/f.graphql" }

/-- Directories X and Y both define a fragment named F. -/
def envFF : Env :=
  { globSync := fun pat =>
      if pat = "X/**/*.graphql" then ["X/f.graphql"]
      else if pat = "Y/**/*.graphql" then ["Y/f.graphql"]
      else [],
    readFile := fun f => f,
    parseSrc := fun body =>
      if body = "X/f.graphql" then [.fragment exFragFXNode]
      else if body = "Y/f.graphql" then [.fragment exFragFYNode]
      else [] }

/-- A resolved entry for fragment F. -/
def exFragFEntry : FragEntry :=
  { type := .object [("a", .named "string" (some true))] (some false) none,
    node := exFragFXNode }

/-- A resolver context whose fragments map holds exactly F. -/
def exCtxF : ResolveSortedResult :=
  { usedNamedTypesSorted := [], fragmentsSorted := [("F", exFragFEntry)],
    operationsSorted := [], usedNamedTypes := [], operations := [],
    fragments := [("F", exFragFEntry)], fragmentDeps := [("F", [])] }

/-- The kinds convertType handles: NonNull and List wrappers, and named types
whose schema entry is an enum, scalar, input object or object — not a union
or interface (TypeDef.other) and not absent from the schema. -/
def handledKind (sch : Schema) : TypeRef → Bool
  | .nonNull inner => handledKind sch inner
  | .list _ => true
  | .named n =>
    match sch.types.get n with
    | some (.other _) => false
    | none => false
    | some _ => true

/-- No ":" occurs in the string.  The traversal's memo keys join an import
path and a fragment name with ":" and generate splits them back at the first
":", so the correspondence between keys and (path, name) nodes is exact for
colon-free paths and names. -/
def colonFree (s : String) : Bool := s.data.all (fun c => !(c == ':'))

/-- Reachability from an explicit start set of (path, fragment) nodes; the
Reach closure of the claim is reachability from the roots at the local path
"..". -/
inductive ReachFrom (ctxOf : String → Dict (List String)) (imports : Dict ImportedFragment)
    (start : List (String × String)) : String × String → Prop where
  | base {n : String × String} : n ∈ start → ReachFrom ctxOf imports start n
  | step {n c : String × String} : ReachFrom ctxOf imports start n →
      c ∈ nodeChildren ctxOf imports n.1 n.2 → ReachFrom ctxOf imports start c

/-! Concrete closure fixture for the C5 witness: local fragments A → B, and C
imported from path P. -/

def exCtxOf : String → Dict (List String) :=
  fun p =>
    if p = ".." then [("A", ["B"]), ("B", [])]
    else if p = "P" then [("C", [])]
    else []

def exImpCtx : ResolveSortedResult :=
  { usedNamedTypesSorted := [], fragmentsSorted := [], operationsSorted := [],
    usedNamedTypes := [], operations := [], fragments := [],
    fragmentDeps := [("C", [])] }

def exImpC : ImportedFragment :=
  { name := "C", path := "P", fragment := exFragFEntry, context := exImpCtx }

def exImports : Dict ImportedFragment := [("C", exImpC)]

/-- `query Op \x7b menus \x7b ...A \x7d ...C \x7d` (the field nests the first
spread). -/
def exOp : OperationDef :=
  { name := "Op", operation := .query, variableDefinitions := [],
    selectionSet := [.field "menus" none (some [.fragmentSpread "A"]), .fragmentSpread "C"],
    loc := some "op.graphql" }

theorem countUnresolved_nil : countUnresolved [] = 0 := rfl

theorem countUnresolved_cons_true {nd : NamedDefinition} (h : nd.resolved = true)
    (ds : List NamedDefinition) : countUnresolved (nd :: ds) = countUnresolved ds := by
  simp [countUnresolved, List.filter, h]

theorem countUnresolved_cons_false {nd : NamedDefinition} (h : nd.resolved = false)
    (ds : List NamedDefinition) : countUnresolved (nd :: ds) = countUnresolved ds + 1 := by
  simp [countUnresolved, List.filter, h]

/-- A pass never unresolves a definition: the unresolved count cannot grow. -/
theorem countUnresolved_runPass_le (sch : Schema) (wfuel : Nat) (imp : Dict ImportedFragment) :
    ∀ (defs : List NamedDefinition) (st : RState) (ds : List NamedDefinition)
      (st2 : RState) (errs : List String),
      runPass sch wfuel imp defs st = .ok (ds, st2, errs) →
      countUnresolved ds ≤ countUnresolved defs := by
  intro defs
  induction defs with
  | nil =>
    intro st ds st2 errs h
    simp only [runPass] at h
    cases h
    exact Nat.le_refl _
  | cons nd rest ih =>
    intro st ds st2 errs h
    simp only [runPass] at h
    split at h
    · rename_i hres
      split at h
      · cases h
      all_goals
        (rename_i heq; cases h;
         have hle := ih _ _ _ _ heq;
         rw [countUnresolved_cons_true hres, countUnresolved_cons_true hres] at *;
         omega)
    · rename_i hres
      have hres2 : nd.resolved = false := by
        cases hv : nd.resolved
        · rfl
        · exact absurd hv hres
      split at h
      · rename_i st1 hd
        split at h
        · cases h
        all_goals
          (rename_i heq; cases h;
           have hle := ih _ _ _ _ heq;
           rw [countUnresolved_cons_true rfl, countUnresolved_cons_false hres2];
           omega)
      · rename_i e hd
        split at h
        · cases h
        · rename_i loc hloc
          split at h
          · cases h
          all_goals
            (rename_i heq; cases h;
             have hle := ih _ _ _ _ heq;
             rw [countUnresolved_cons_false rfl, countUnresolved_cons_false hres2];
             omega)

/-! ## C10 -/

/-- C10: convertType applied to a GraphQL type of a kind it does not handle
(not NonNull, enum, scalar, list, input object or object — e.g. a union or
interface, modeled by TypeDef.other) raises no error: it returns the host
type Named "<unknown>" with no nullable flag (graphql.ts line 525). -/
theorem convertType_unhandled_kind (sch : Schema) (fuel : Nat) (n nm : String)
    (ss : Option SelectionSet) (fragments : Dict FragEntry)
    (imports : Dict ImportedFragment) (nullable expandNamedInput : Bool)
    (hfuel : 0 < fuel) (h : sch.types.get n = some (.other nm)) :
    convertType sch fuel (.named n) ss fragments imports nullable expandNamedInput
      = .ok (.named "<unknown>" none) := by
  obtain ⟨k, rfl⟩ : ∃ k, fuel = k + 1 := ⟨fuel - 1, by omega⟩
  simp [convertType, convertTypeF, h]

theorem convertType_unhandled_kind_witness :
    convertType exSchema 100 (.named "U") (some [.fragmentSpread "A"]) exFragments [] true false
      = .ok (.named "<unknown>" none) :=
  convertType_unhandled_kind exSchema 100 "U" "U" (some [.fragmentSpread "A"])
    exFragments [] true false (by omega) rfl

/-! ## C2: intersection member order -/

/-- C2 counterexample: for the object selection `{ ...A ...B }` (two spreads,
A first in document order) the code yields intersection members
[BFragment, AFragment, object] — each spread is spliced to the FRONT — so the
first spread is NOT the first member and subsequent spreads do NOT follow in
document order. -/
theorem convertType_spread_order_counterexample :
    convertType exSchema 100 (.named "T")
        (some [.fragmentSpread "A", .fragmentSpread "B"]) exFragments [] true false
      = .ok (.intersection
          [.named "BFragment" none, .named "AFragment" none, .object [] none none]
          (some true))
    ∧ (Except.ok (TSType.intersection
          [.named "BFragment" none, .named "AFragment" none, .object [] none none]
          (some true)) : Except String TSType)
        ≠ .ok (.intersection
          [.named "AFragment" none, .named "BFragment" none, .object [] none none]
          (some true)) := by
  refine ⟨rfl, ?_⟩
  intro h
  simp at h

/-! ## C8: content-model validator mapping -/

/-- C8: the content-model generator maps every json node as the spec states:
string without validation.enum → string validator (via the switch
fallthrough), string with validation.enum → closed enum validator over
exactly the entry value strings, datetime → string validator, number →
number validator, boolean → boolean validator, object → record validator
keyed by each field declared name; and the emitted module maps each schema
name to that validator. -/
theorem generateTypeFor_matches_spec :
    (∀ v : CMType, generateTypeFor v = specValidatorFor v)
    ∧ ∀ schemas : List ContentModelSchema,
        generateContentModelTypescriptCode schemas = specModuleFor schemas := by
  have hno : ∀ t : CMNonObject, generateNonObjectTypeFor t = specNonObjectValidator t := by
    intro t
    cases t <;> rfl
  have h1 : ∀ v : CMType, generateTypeFor v = specValidatorFor v := by
    intro v
    cases v with
    | nonObject t => simpa [generateTypeFor, specValidatorFor] using hno t
    | object fields help => simp [generateTypeFor, specValidatorFor, hno]
  exact ⟨h1, fun schemas => by
    simp [generateContentModelTypescriptCode, specModuleFor, h1]⟩

/-- Shape of the selection-loop accumulators on success: the spread list is
accumulated by prepending (splice-to-front), so it comes out reversed, and
the object nullable flag is cleared exactly when a spread occurred. -/
theorem convertSelectionsF_spec (sch : Schema) (fragments : Dict FragEntry)
    (imports : Dict ImportedFragment) :
    ∀ (fuel : Nat) (fieldTypes : Dict TypeRef) (sels : List Selection)
      (fields : List (String × TSType)) (spreadsRev : List String)
      (objNullable : Option Bool)
      (out : List (String × TSType) × List String × Option Bool),
      convertSelectionsF sch fragments imports fuel fieldTypes sels fields spreadsRev
          objNullable = .ok out →
      out.2.1 = (spreadNames sels).reverse ++ spreadsRev
      ∧ out.2.2 = (if spreadNames sels = [] then objNullable else none) := by
  intro fuel
  induction fuel with
  | zero =>
    intro _ sels _ _ _ _ h
    simp [convertSelectionsF] at h
  | succ fuel ih =>
    intro fieldTypes sels fields spreadsRev objNullable out h
    cases sels with
    | nil =>
      simp only [convertSelectionsF] at h
      cases h
      simp [spreadNames]
    | cons sel rest =>
      cases sel with
      | field nm aliasName selectionSet =>
        simp only [convertSelectionsF] at h
        split at h
        · cases h
        · split at h
          · cases h
          · rename_i v hv
            have hrec := ih fieldTypes rest (Dict.set fields (aliasOrName nm aliasName) v)
              spreadsRev objNullable out h
            simpa [spreadNames] using hrec
      | fragmentSpread fn =>
        simp only [convertSelectionsF] at h
        split at h
        all_goals first
          | cases h
          | (have hrec := ih fieldTypes rest fields (fn :: spreadsRev) none out h
             refine ⟨?_, ?_⟩
             · rw [hrec.1]
               simp [spreadNames]
             · rw [hrec.2]
               simp [spreadNames])
      | inlineFragment =>
        simp only [convertSelectionsF] at h
        cases h

/-! ## C2 amended theorem -/

/-- C2 amended: when convertType builds an object selection that contains
fragment spreads (and is not the single-spread shortcut), the resulting
Intersection host type lists the spreads in REVERSE document order — every
spread is spliced to the front, so the LAST spread comes first — and the
local object member comes last. -/
theorem convertType_intersection_member_order (sch : Schema) (fuel : Nat)
    (n onm : String) (fieldTypes : Dict TypeRef) (sels : List Selection)
    (fragments : Dict FragEntry) (imports : Dict ImportedFragment)
    (nullable : Bool) (out : TSType)
    (hobj : sch.types.get n = some (.object onm fieldTypes))
    (hns : ∀ fn, sels ≠ [Selection.fragmentSpread fn])
    (hsp : spreadNames sels ≠ [])
    (hok : convertType sch fuel (.named n) (some sels) fragments imports nullable false
      = .ok out) :
    ∃ fields, out = .intersection
      (((spreadNames sels).reverse.map (fun fn => TSType.named (fn ++ "Fragment") none))
        ++ [.object fields none none]) (some nullable) := by
  cases fuel with
  | zero => simp [convertType, convertTypeF] at hok
  | succ fuel =>
    simp only [convertType, convertTypeF] at hok
    rw [hobj] at hok
    dsimp only at hok
    split at hok
    · cases hok
    · rename_i fields2 spreadsRev2 objNullable2 heq2
      have hspec := convertSelectionsF_spec sch fragments imports fuel fieldTypes sels
        [] [] (some nullable) (fields2, spreadsRev2, objNullable2) heq2
      simp only [List.append_nil] at hspec
      split at hok
      · exfalso
        apply hsp
        have h1 : ([] : List String) = (spreadNames sels).reverse := by
          simpa using hspec.1
        simpa using congrArg List.reverse h1.symm
      · rename_i hd tl
        cases hok
        refine ⟨fields2, ?_⟩
        have h1 : hd :: tl = (spreadNames sels).reverse := by simpa using hspec.1
        have h2 : objNullable2 = none := by
          have h3 := hspec.2
          rw [if_neg hsp] at h3
          simpa using h3
        rw [← h1, h2]

/-- C2 amended witness: at the concrete selection with spreads A then B and
a plain field, the intersection members are [B, A, object]. -/
theorem convertType_intersection_member_order_witness :
    ∃ fields, (TSType.intersection
        [.named "BFragment" none, .named "AFragment" none,
         .object [("a", .named "string" (some true))] none none] (some true))
      = .intersection
        (((spreadNames [.fragmentSpread "A", .fragmentSpread "B", .field "a" none none]).reverse.map
            (fun fn => TSType.named (fn ++ "Fragment") none))
          ++ [.object fields none none]) (some true) :=
  convertType_intersection_member_order exSchema 100 "T" "T"
    [("a", .named "String"), ("b", .named "String")]
    [.fragmentSpread "A", .fragmentSpread "B", .field "a" none none]
    exFragments [] true
    (.intersection
      [.named "BFragment" none, .named "AFragment" none,
       .object [("a", .named "string" (some true))] none none] (some true))
    rfl (by intro fn h; simp at h) (by simp [spreadNames]) rfl

/-! ## C7 -/

/-- C7: whenever convertType turns an object selection into an Intersection,
the local object member (always the last member) has its own nullable flag
cleared to undefined, and the Intersection itself carries the nullability
the object originally had (the effective nullable argument). -/
theorem convertType_intersection_nullability (sch : Schema) :
    ∀ (fuel : Nat) (t : TypeRef) (ss : Option SelectionSet)
      (fragments : Dict FragEntry) (imports : Dict ImportedFragment)
      (nb ex : Bool) (tys : List TSType) (nul : Option Bool),
      convertType sch fuel t ss fragments imports nb ex = .ok (.intersection tys nul) →
      nul = some (effectiveNullable t nb)
      ∧ ∃ fields, tys.getLast? = some (.object fields none none) := by
  intro fuel
  induction fuel with
  | zero =>
    intro t _ _ _ _ _ _ _ h
    simp [convertType, convertTypeF] at h
  | succ fuel ih =>
    intro t ss fragments imports nb ex tys nul h
    cases t with
    | nonNull inner =>
      simp only [convertType, convertTypeF] at h
      have hrec := ih inner ss fragments imports false false tys nul h
      exact ⟨hrec.1, hrec.2⟩
    | list inner =>
      simp only [convertType, convertTypeF] at h
      split at h
      · cases h
      · cases h
    | named n =>
      simp only [convertType, convertTypeF] at h
      split at h
      · cases h
      · split at h
        · cases h
        · cases h
      · split at h
        · split at h
          · cases h
          · cases h
        · cases h
      · split at h
        · cases h
        · cases h
        · rename_i sels hne
          split at h
          all_goals first
            | cases h
            | (rename_i heq2
               have hspec := convertSelectionsF_spec sch fragments imports fuel _ sels
                 [] [] (some nb) _ heq2
               simp only [List.append_nil] at hspec
               split at h
               · cases h
               · rename_i hd tl
                 cases h
                 have h1 : hd :: tl = (spreadNames sels).reverse := by
                   simpa using hspec.1
                 have hne2 : spreadNames sels ≠ [] := by
                   intro hnil
                   rw [hnil] at h1
                   simp at h1
                 have h2 := hspec.2
                 rw [if_neg hne2] at h2
                 cases h2
                 exact ⟨rfl, _, by rw [List.getLast?_concat]⟩)
      · cases h

/-- C7 witness: the concrete two-spread selection produces an intersection
with the cleared-object member last and the original nullability on the
intersection. -/
theorem convertType_intersection_nullability_witness :
    (some true : Option Bool) = some (effectiveNullable (.named "T") true)
    ∧ ∃ fields, ([TSType.named "BFragment" none, .named "AFragment" none,
        TSType.object [] none none].getLast? = some (.object fields none none)) :=
  convertType_intersection_nullability exSchema 100 (.named "T")
    (some [.fragmentSpread "A", .fragmentSpread "B"]) exFragments [] true false
    [.named "BFragment" none, .named "AFragment" none, .object [] none none]
    (some true) rfl

/-! ## C1: the import loop only ever loads the first directory -/

/-- C1: the `break` at graphql.ts line 182 leaves the directory loop after the
first directory that yields files.  With two import specs whose distinct
`from` paths X and Y each resolve to a directory with one .graphql file,
loadImports aborts (Y's data is never loaded, so the spec importing from Y
trips the nonNull check at line 194), while each path alone loads, parses and
type-resolves fine — refuting the claim that every distinct path is loaded. -/
theorem loadImports_only_first_dir :
    loadImports envXY exSchema 30
        [⟨"X", .someNames ["A"]⟩, ⟨"Y", .someNames ["B"]⟩] [] false
      = .error "expected a non-null value: imported data"
    ∧ (∃ i1, loadImports envXY exSchema 30 [⟨"X", .someNames ["A"]⟩] [] false = .ok i1)
    ∧ (∃ i2, loadImports envXY exSchema 30 [⟨"Y", .someNames ["B"]⟩] [] false = .ok i2) :=
  ⟨rfl, ⟨_, rfl⟩, ⟨_, rfl⟩⟩

/-! ## C3: duplicate fragment imports from two paths never reach the guard -/

/-- C3: when fragment F is requested from two different paths X and Y, the run
does abort, but with the generic nonNull failure of line 194 (Y was never
loaded, by the C1 break), not with the duplicate-import error of lines 210-216
that names F and both paths; that guard does fire (naming F, Y and X) when
both paths' data is present, as the final conjunct shows on buildOutMap
directly. -/
theorem loadImports_duplicate_from_two_paths :
    loadImports envFF exSchema 30
        [⟨"X", .someNames ["F"]⟩, ⟨"Y", .someNames ["F"]⟩] [] false
      = .error "expected a non-null value: imported data"
    ∧ ("expected a non-null value: imported data"
        ∉ ["fragment \"F\" import from \"X\" and from \"Y\"",
           "fragment \"F\" import from \"Y\" and from \"X\""])
    ∧ buildOutMap [("X", exCtxF), ("Y", exCtxF)]
          [("X", [("F", true)]), ("Y", [("F", true)])] []
        = .error "fragment \"F\" import from \"Y\" and from \"X\"" :=
  ⟨rfl, by decide, rfl⟩

/-! ## C4: the fixpoint loop terminates -/

/-- Any iteration budget above the unresolved count is enough: the loop never
returns `none` (fuel exhaustion), because a completed pass cannot increase
the count and the loop aborts or exits whenever the count fails to shrink. -/
theorem resolveLoopF_fuel_sufficient (sch : Schema) (wfuel : Nat) (imp : Dict ImportedFragment) :
    ∀ (k : Nat) (defs : List NamedDefinition) (st : RState),
      countUnresolved defs < k →
      resolveLoopF sch wfuel imp k defs st ≠ none := by
  intro k
  induction k with
  | zero => intro defs st h; exact absurd h (by omega)
  | succ k ih =>
    intro defs st h
    simp only [resolveLoopF]
    split
    · simp
    · rename_i ds st2 errs heq
      split
      · simp
      · split
        · simp
        · rename_i h1 h2
          apply ih
          have hle := countUnresolved_runPass_le sch wfuel imp defs st ds st2 errs heq
          by_contra hge
          push_neg at hge
          have heqc : countUnresolved defs = countUnresolved ds := by omega
          exact h1 ⟨heqc, by omega⟩

/-- C4: the type-resolver fixpoint loop terminates for every input: at the
fuel resolveTypes supplies (unresolved count + 1) the loop never exhausts its
iteration budget, and one full pass either aborts reporting every recorded
per-definition error (count unchanged and nonzero), or exits successfully
(zero unresolved), or strictly decreases the unresolved count. -/
theorem resolveTypes_fixpoint_terminates (sch : Schema) (wfuel : Nat)
    (imp : Dict ImportedFragment) (defs : List NamedDefinition) (st : RState)
    (ds : List NamedDefinition) (st2 : RState) (errs : List String)
    (hrun : runPass sch wfuel imp defs st = .ok (ds, st2, errs)) :
    resolveLoopF sch wfuel imp (countUnresolved defs + 1) defs st ≠ none
    ∧ (countUnresolved defs = countUnresolved ds ∧ countUnresolved defs ≠ 0 →
        resolveLoopF sch wfuel imp (countUnresolved defs + 1) defs st
          = some (.error ("failed to resolve types: " ++ String.intercalate "\n" errs)))
    ∧ (countUnresolved ds = 0 →
        resolveLoopF sch wfuel imp (countUnresolved defs + 1) defs st = some (.ok st2))
    ∧ (¬(countUnresolved defs = countUnresolved ds ∧ countUnresolved defs ≠ 0) →
        countUnresolved ds ≠ 0 →
        countUnresolved ds < countUnresolved defs) := by
  have hle := countUnresolved_runPass_le sch wfuel imp defs st ds st2 errs hrun
  refine ⟨resolveLoopF_fuel_sufficient sch wfuel imp _ defs st (by omega), ?_, ?_, ?_⟩
  · intro hcond
    simp only [resolveLoopF]
    rw [hrun]
    simp only [if_pos hcond]
  · intro hzero
    have hnc : ¬(countUnresolved defs = countUnresolved ds ∧ countUnresolved defs ≠ 0) := by
      intro hand
      omega
    simp only [resolveLoopF]
    rw [hrun]
    simp only [if_neg hnc, if_pos hzero]
  · intro hnc hnz
    by_contra hge
    push_neg at hge
    exact hnc ⟨by omega, by omega⟩

/-- C4 witness: at the empty definition list the loop exits successfully at
once within the budget. -/
theorem resolveTypes_fixpoint_terminates_witness :
    resolveLoopF exSchema 5 [] (countUnresolved ([] : List NamedDefinition) + 1) [] rstEmpty ≠ none
    ∧ resolveLoopF exSchema 5 [] (countUnresolved ([] : List NamedDefinition) + 1) [] rstEmpty
        = some (.ok rstEmpty) :=
  ⟨(resolveTypes_fixpoint_terminates exSchema 5 [] [] rstEmpty [] rstEmpty [] rfl).1,
   (resolveTypes_fixpoint_terminates exSchema 5 [] [] rstEmpty [] rstEmpty [] rfl).2.2.1 rfl⟩

/-! ## C9: fragments with an unknown type condition are silently skipped -/

/-- C9: a fragment definition whose type condition names a type absent from
the schema is silently marked resolved: resolveDef raises no error and leaves
the state untouched (so nothing is added to the fragments or fragment-deps
maps), the pass marks the definition resolved while recording no error, and a
whole resolution run over such a fragment succeeds with empty result maps. -/
theorem resolveTypes_unknown_condition_silent (sch : Schema) (wfuel : Nat)
    (imp : Dict ImportedFragment) (st : RState) (fr : FragmentDef)
    (h : sch.types.get fr.typeCondition = none) :
    resolveDef sch wfuel imp st (.fragment fr) = .ok st
    ∧ runPass sch wfuel imp [{ name := fr.name, defn := .fragment fr, resolved := false }] st
        = .ok ([{ name := fr.name, defn := .fragment fr, resolved := true }], st, [])
    ∧ resolveTypes exSchema 30 [.fragment exFragGNode] none
        = .ok { usedNamedTypes := [], operations := [], fragments := [], fragmentDeps := [] } := by
  have h1 : resolveDef sch wfuel imp st (.fragment fr) = .ok st := by
    simp [resolveDef, h]
  refine ⟨h1, ?_, rfl⟩
  simp [runPass, h1]

/-- C9 witness: the concrete fragment G on the missing type Missing. -/
theorem resolveTypes_unknown_condition_silent_witness :
    resolveDef exSchema 30 [] rstEmpty (.fragment exFragGNode) = .ok rstEmpty
    ∧ runPass exSchema 30 []
          [{ name := exFragGNode.name, defn := .fragment exFragGNode, resolved := false }] rstEmpty
        = .ok ([{ name := exFragGNode.name, defn := .fragment exFragGNode, resolved := true }],
               rstEmpty, [])
    ∧ resolveTypes exSchema 30 [.fragment exFragGNode] none
        = .ok { usedNamedTypes := [], operations := [], fragments := [], fragmentDeps := [] } :=
  resolveTypes_unknown_condition_silent exSchema 30 [] rstEmpty exFragGNode rfl

/-! ## C6: nullability invariants -/

theorem dict_get_set_self {α : Type} (d : Dict α) (k : String) (v : α) :
    (d.set k v).get k = some v := by
  induction d with
  | nil => simp [Dict.set, Dict.get]
  | cons p rest ih =>
    obtain ⟨k2, v2⟩ := p
    by_cases hk : k2 = k
    · subst hk
      simp [Dict.set, Dict.get]
    · simp [Dict.set, Dict.get, hk, ih]

theorem dict_get_set_ne {α : Type} (d : Dict α) (k k' : String) (v : α) (h : k' ≠ k) :
    (d.set k v).get k' = d.get k' := by
  have hne : k ≠ k' := fun hh => h hh.symm
  induction d with
  | nil =>
    simp only [Dict.set, Dict.get]
    rw [if_neg hne]
  | cons p rest ih =>
    obtain ⟨k2, v2⟩ := p
    simp only [Dict.set]
    by_cases hk : k2 = k
    · rw [if_pos hk]
      subst hk
      simp only [Dict.get]
      rw [if_neg hne, if_neg hne]
    · rw [if_neg hk]
      simp only [Dict.get]
      by_cases hk2 : k2 = k'
      · rw [if_pos hk2, if_pos hk2]
      · rw [if_neg hk2, if_neg hk2, ih]

/-- If a key reads a value after `d[k] = v` that it did not read before, the
key is `k` and the value is `v`. -/
theorem dict_get_set_cases {α : Type} (d : Dict α) (k nm : String) (v x : α)
    (hget : (d.set k v).get nm = some x) (hne : d.get nm ≠ some x) :
    nm = k ∧ x = v := by
  by_cases h : nm = k
  · subst h
    rw [dict_get_set_self] at hget
    cases hget
    exact ⟨rfl, rfl⟩
  · rw [dict_get_set_ne d k nm v h] at hget
    exact absurd hget hne

theorem nullableOf_withNullable (t : TSType) (b : Option Bool) :
    nullableOf (withNullable t b) = b := by
  cases t <;> rfl

/-- Below top level, for every type of a kind convertType handles, the
emitted nullable flag is exactly the effective nullability: the caller's
`nullable` argument, forced to false under a NonNull wrapper. -/
theorem convertType_nullableOf (sch : Schema) :
    ∀ (fuel : Nat) (t : TypeRef) (ss : Option SelectionSet)
      (fragments : Dict FragEntry) (imports : Dict ImportedFragment)
      (nb ex : Bool) (out : TSType),
      convertType sch fuel t ss fragments imports nb ex = .ok out →
      handledKind sch t = true →
      nullableOf out = some (effectiveNullable t nb) := by
  intro fuel
  induction fuel with
  | zero =>
    intro t _ _ _ _ _ out h _
    simp [convertType, convertTypeF] at h
  | succ fuel ih =>
    intro t ss fragments imports nb ex out h hk
    cases t with
    | nonNull inner =>
      simp only [convertType, convertTypeF] at h
      have hk2 : handledKind sch inner = true := by simpa [handledKind] using hk
      have hrec := ih inner ss fragments imports false false out h hk2
      simpa [effectiveNullable] using hrec
    | list inner =>
      simp only [convertType, convertTypeF] at h
      split at h
      · cases h
      · cases h
        simp [nullableOf, effectiveNullable]
    | named n =>
      simp only [convertType, convertTypeF] at h
      split at h
      · cases h
        simp [nullableOf, effectiveNullable]
      · split at h
        · cases h
          simp [nullableOf, effectiveNullable]
        · cases h
          simp [nullableOf, effectiveNullable]
      · split at h
        · split at h
          · cases h
          · cases h
            simp [nullableOf, effectiveNullable]
        · cases h
          simp [nullableOf, effectiveNullable]
      · split at h
        · cases h
        · cases h
          simp [nullableOf, effectiveNullable]
        · rename_i sels hne
          split at h
          all_goals first
            | cases h
            | (rename_i heq2
               have hspec := convertSelectionsF_spec sch fragments imports fuel _ sels
                 [] [] (some nb) _ heq2
               simp only [List.append_nil] at hspec
               split at h
               · cases h
                 have hnil : spreadNames sels = [] := by
                   simpa using congrArg List.reverse hspec.1
                 have h2 := hspec.2
                 rw [if_pos hnil] at h2
                 cases h2 <;> simp [nullableOf, effectiveNullable]
               · cases h
                 simp [nullableOf, effectiveNullable])
      · rename_i hen hsc hio hob
        exfalso
        rcases hval : sch.types.get n with _ | td
        · simp [handledKind, hval] at hk
        · cases td with
          | scalar nm => exact hsc nm hval
          | enum nm vals => exact hen nm vals hval
          | inputObject nm fs => exact hio nm fs hval
          | object nm fs => exact hob nm fs hval
          | other nm => simp [handledKind, hval] at hk

/-- C6 counterexample: the field `u` of the query root is not NonNull-wrapped
in the schema, so by the claim's below-top-level rule its output nullability
should be true; but U is a union-like type, convertType's catch-all returns
Named "<unknown>" with NO nullable flag, and the field renders without
"| null". -/
theorem convertType_field_nullability_counterexample :
    convertType exSchema 30 (.named "Query") (some [.field "u" none none]) [] [] true false
      = .ok (.object [("u", .named "<unknown>" none)] (some true) none)
    ∧ isNonNullRef (.named "U") = false
    ∧ nullableOf (.named "<unknown>" none) = none
    ∧ nullSuffix (nullableOf (.named "<unknown>" none)) = "" :=
  ⟨rfl, rfl, rfl, rfl⟩

/-- C6 amended: the top-level non-nullability invariant holds — every
operation entry resolveDef writes has a non-nullable operation type and a
flagless variables object, and every fragment entry it writes has a
non-nullable body — and below top level the nullability of a converted type
is the negation of its NonNull wrapping PROVIDED the type's kind is one
convertType handles; union- and interface-typed fields instead get the
"<unknown>" host type with no nullable flag (see the counterexample). -/
theorem resolver_nullability (sch : Schema) (wfuel : Nat) (imp : Dict ImportedFragment)
    (st st2 : RState) (d : Definition)
    (hok : resolveDef sch wfuel imp st d = .ok st2) :
    ((∀ nm e, st2.operations.get nm = some e → st.operations.get nm ≠ some e →
        nullableOf e.operation = some false ∧ nullableOf e.variablesType = none)
    ∧ (∀ nm f, st2.fragments.get nm = some f → st.fragments.get nm ≠ some f →
        nullableOf f.type = some false))
    ∧ (∀ (fuel : Nat) (t : TypeRef) (ss : Option SelectionSet)
        (fragments : Dict FragEntry) (imports : Dict ImportedFragment)
        (nb ex : Bool) (out : TSType),
        convertType sch fuel t ss fragments imports nb ex = .ok out →
        handledKind sch t = true →
        nullableOf out = some (effectiveNullable t nb)) := by
  refine ⟨?_, fun fuel t ss fr im nb ex out h hk =>
    convertType_nullableOf sch fuel t ss fr im nb ex out h hk⟩
  cases d with
  | other =>
    simp only [resolveDef] at hok
    cases hok
    constructor
    · intro nm e hget hne
      exact absurd hget hne
    · intro nm f hget hne
      exact absurd hget hne
  | operation op =>
    simp only [resolveDef] at hok
    split at hok
    · cases hok
    · rename_i rootName hroot
      split at hok
      · cases hok
      · rename_i used1 hwalk
        split at hok
        · cases hok
        · rename_i opT hconv
          cases hok
          constructor
          · intro nm e hget hne
            obtain ⟨hnm, hv⟩ := dict_get_set_cases st.operations _ nm _ e hget hne
            subst hv
            exact ⟨nullableOf_withNullable opT (some false), rfl⟩
          · intro nm f hget hne
            exact absurd hget hne
  | fragment fr =>
    simp only [resolveDef] at hok
    split at hok
    · cases hok
      constructor
      · intro nm e hget hne
        exact absurd hget hne
      · intro nm f hget hne
        exact absurd hget hne
    · rename_i td hcond
      split at hok
      · cases hok
      · rename_i used1 hwalk
        split at hok
        · cases hok
        · rename_i ty hconv
          split at hok
          · cases hok
          · rename_i deps hdeps
            cases hok
            constructor
            · intro nm e hget hne
              exact absurd hget hne
            · intro nm f hget hne
              obtain ⟨hnm, hv⟩ := dict_get_set_cases st.fragments _ nm _ f hget hne
              subst hv
              exact nullableOf_withNullable ty (some false)

/-- C6 amended witness: at the trivial definition the hypotheses hold and the
invariants are vacuously witnessed at the unchanged state. -/
theorem resolver_nullability_witness :
    ((∀ nm e, rstEmpty.operations.get nm = some e → rstEmpty.operations.get nm ≠ some e →
        nullableOf e.operation = some false ∧ nullableOf e.variablesType = none)
    ∧ (∀ nm f, rstEmpty.fragments.get nm = some f → rstEmpty.fragments.get nm ≠ some f →
        nullableOf f.type = some false))
    ∧ (∀ (fuel : Nat) (t : TypeRef) (ss : Option SelectionSet)
        (fragments : Dict FragEntry) (imports : Dict ImportedFragment)
        (nb ex : Bool) (out : TSType),
        convertType exSchema fuel t ss fragments imports nb ex = .ok out →
        handledKind exSchema t = true →
        nullableOf out = some (effectiveNullable t nb)) :=
  resolver_nullability exSchema 30 [] rstEmpty rstEmpty .other rfl

/-! ## C5: dependency closure of addFragmentDepsRecursive -/

theorem dict_hasKey_set_self {α : Type} (d : Dict α) (k : String) (v : α) :
    (d.set k v).hasKey k = true := by
  simp [Dict.hasKey, dict_get_set_self]

theorem dict_hasKey_set_mono {α : Type} (d : Dict α) (k k' : String) (v : α)
    (h : d.hasKey k' = true) : (d.set k v).hasKey k' = true := by
  by_cases hk : k' = k
  · subst hk
    exact dict_hasKey_set_self d k' v
  · simpa [Dict.hasKey, dict_get_set_ne d k k' v hk] using h

theorem dict_hasKey_set_elim {α : Type} (d : Dict α) (k k' : String) (v : α)
    (h : (d.set k v).hasKey k' = true) : k' = k ∨ d.hasKey k' = true := by
  by_cases hk : k' = k
  · exact Or.inl hk
  · right
    simpa [Dict.hasKey, dict_get_set_ne d k k' v hk] using h

theorem dict_get_of_hasKey {α : Type} (d : Dict α) (k : String)
    (h : d.hasKey k = true) : ∃ v, d.get k = some v := by
  unfold Dict.hasKey at h
  cases hv : d.get k with
  | none => rw [hv] at h; simp at h
  | some v => exact ⟨v, rfl⟩

theorem dict_get_of_not_hasKey {α : Type} (d : Dict α) (k : String)
    (h : d.hasKey k = false) : d.get k = none := by
  unfold Dict.hasKey at h
  cases hv : d.get k with
  | none => rfl
  | some v => rw [hv] at h; simp at h

theorem dict_mem_keys {α : Type} (d : Dict α) (k : String) :
    k ∈ d.keys ↔ d.hasKey k = true := by
  induction d with
  | nil => simp [Dict.keys, Dict.hasKey, Dict.get]
  | cons p rest ih =>
    obtain ⟨k2, v2⟩ := p
    by_cases hk : k2 = k
    · subst hk
      simp [Dict.keys, Dict.hasKey, Dict.get]
    · have h2 : Dict.hasKey ((k2, v2) :: rest) k = Dict.hasKey rest k := by
        simp [Dict.hasKey, Dict.get, hk]
      rw [h2, ← ih]
      simp only [Dict.keys, List.map_cons, List.mem_cons]
      constructor
      · rintro (h1 | h1)
        · exact absurd h1.symm hk
        · exact h1
      · exact fun h1 => Or.inr h1

theorem mem_insertSorted (x y : String) (l : List String) :
    x ∈ insertSorted y l ↔ x = y ∨ x ∈ l := by
  induction l with
  | nil => simp [insertSorted]
  | cons z zs ih =>
    simp only [insertSorted]
    split
    · simp
    · simp only [List.mem_cons, ih]
      tauto

theorem mem_sortStrings (x : String) (l : List String) :
    x ∈ sortStrings l ↔ x ∈ l := by
  induction l with
  | nil => simp [sortStrings]
  | cons y ys ih =>
    simp only [sortStrings, List.foldr_cons]
    rw [mem_insertSorted]
    rw [show List.foldr insertSorted [] ys = sortStrings ys from rfl, ih]
    simp

theorem string_data_inj {s t : String} (h : s.data = t.data) : s = t := by
  cases s
  cases t
  subst h
  rfl

theorem string_mk_data (s : String) : (⟨s.data⟩ : String) = s := by
  cases s
  rfl

theorem colon_chain_inj (a : List Char) :
    ∀ (c b d : List Char),
      a.all (fun ch => !(ch == ':')) = true →
      c.all (fun ch => !(ch == ':')) = true →
      a ++ ':' :: b = c ++ ':' :: d → a = c ∧ b = d := by
  induction a with
  | nil =>
    intro c b d _ hc h
    cases c with
    | nil => simpa using h
    | cons y ys =>
      rw [List.nil_append, List.cons_append] at h
      injection h with h1 h2
      rw [← h1] at hc
      simp at hc
  | cons x xs ih =>
    intro c b d ha hc h
    cases c with
    | nil =>
      rw [List.nil_append, List.cons_append] at h
      injection h with h1 h2
      rw [h1] at ha
      simp at ha
    | cons y ys =>
      rw [List.cons_append, List.cons_append] at h
      injection h with h1 h2
      simp only [List.all_cons, Bool.and_eq_true] at ha hc
      obtain ⟨h3, h4⟩ := ih ys b d ha.2 hc.2 h2
      exact ⟨by rw [h1, h3], h4⟩

theorem colonFree_key_inj (a b c d : String)
    (ha : colonFree a = true) (hc : colonFree c = true)
    (h : a ++ ":" ++ b = c ++ ":" ++ d) : a = c ∧ b = d := by
  have hdata := congrArg String.data h
  simp only [String.data_append] at hdata
  rw [List.append_assoc, List.append_assoc] at hdata
  simp only [show (":" : String).data = [':'] from rfl, List.singleton_append] at hdata
  unfold colonFree at ha hc
  obtain ⟨h1, h2⟩ := colon_chain_inj a.data c.data b.data d.data ha hc hdata
  exact ⟨string_data_inj h1, string_data_inj h2⟩

theorem splitOnCharAux_no_sep (sep : Char) :
    ∀ (l acc : List Char), l.all (fun c => !(c == sep)) = true →
      splitOnCharAux sep l acc = [acc.reverse ++ l] := by
  intro l
  induction l with
  | nil =>
    intro acc _
    simp [splitOnCharAux]
  | cons c rest ih =>
    intro acc hall
    simp only [List.all_cons, Bool.and_eq_true] at hall
    have hc : ¬ c = sep := by simpa using hall.1
    simp only [splitOnCharAux]
    rw [if_neg hc, ih (c :: acc) hall.2]
    simp

theorem splitOnCharAux_once (sep : Char) :
    ∀ (a b acc : List Char), a.all (fun c => !(c == sep)) = true →
      splitOnCharAux sep (a ++ sep :: b) acc
        = (acc.reverse ++ a) :: splitOnCharAux sep b [] := by
  intro a
  induction a with
  | nil =>
    intro b acc _
    simp only [List.nil_append, splitOnCharAux]
    simp
  | cons c rest ih =>
    intro b acc hall
    simp only [List.all_cons, Bool.and_eq_true] at hall
    have hc : ¬ c = sep := by simpa using hall.1
    simp only [List.cons_append, splitOnCharAux]
    simp only [List.append_eq]
    rw [if_neg hc, ih b (c :: acc) hall.2]
    simp

theorem jsSplit_key (q g : String) (hq : colonFree q = true) (hg : colonFree g = true) :
    jsSplit (q ++ ":" ++ g) ':' 2 = [q, g] := by
  unfold colonFree at hq hg
  unfold jsSplit
  have hdata : (q ++ ":" ++ g).data = q.data ++ ':' :: g.data := by
    simp [String.data_append, List.append_assoc,
      show (":" : String).data = [':'] from rfl]
  rw [hdata, splitOnCharAux_once ':' q.data g.data [] hq,
    splitOnCharAux_no_sep ':' g.data [] hg]
  simp [string_mk_data]

theorem nodeKey_local (ctxOf : String → Dict (List String)) (imports : Dict ImportedFragment)
    (p f : String) (h : (ctxOf p).hasKey f = true) :
    nodeKey ctxOf imports p f = p ++ ":" ++ f := by
  simp [nodeKey, h]

theorem nodeKey_import (ctxOf : String → Dict (List String)) (imports : Dict ImportedFragment)
    (p f : String) (imp : ImportedFragment)
    (h : (ctxOf p).hasKey f = false) (himp : imports.get f = some imp) :
    nodeKey ctxOf imports p f = imp.path ++ ":" ++ f := by
  simp [nodeKey, h, himp]

theorem nodeKey_unknown (ctxOf : String → Dict (List String)) (imports : Dict ImportedFragment)
    (p f : String) (h : (ctxOf p).hasKey f = false) (hnone : imports.get f = none) :
    nodeKey ctxOf imports p f = p ++ ":" ++ f := by
  simp [nodeKey, h, hnone]

theorem nodeChildren_local (ctxOf : String → Dict (List String)) (imports : Dict ImportedFragment)
    (p f : String) (l : List String) (h : (ctxOf p).get f = some l) :
    nodeChildren ctxOf imports p f = l.map (fun d => (p, d)) := by
  simp [nodeChildren, h]

theorem nodeChildren_import (ctxOf : String → Dict (List String)) (imports : Dict ImportedFragment)
    (p f : String) (imp : ImportedFragment)
    (h : (ctxOf p).get f = none) (himp : imports.get f = some imp) :
    nodeChildren ctxOf imports p f
      = ((imp.context.fragmentDeps.get f).getD []).map (fun d => (imp.path, d)) := by
  simp [nodeChildren, h, himp]

theorem nodeChildren_unknown (ctxOf : String → Dict (List String)) (imports : Dict ImportedFragment)
    (p f : String) (h : (ctxOf p).get f = none) (hnone : imports.get f = none) :
    nodeChildren ctxOf imports p f = [] := by
  simp [nodeChildren, h, hnone]

/-- Every memo key is a colon-free path joined to the fragment name. -/
theorem nodeKey_shape (ctxOf : String → Dict (List String)) (imports : Dict ImportedFragment)
    (Himp : ∀ fn imp, imports.get fn = some imp →
        colonFree imp.path = true ∧ ctxOf imp.path = imp.context.fragmentDeps)
    (q g : String) (hq : colonFree q = true) :
    ∃ q2, colonFree q2 = true ∧ nodeKey ctxOf imports q g = q2 ++ ":" ++ g := by
  cases h1 : (ctxOf q).hasKey g with
  | true => exact ⟨q, hq, nodeKey_local ctxOf imports q g h1⟩
  | false =>
    cases himp : imports.get g with
    | some imp =>
      exact ⟨imp.path, (Himp g imp himp).1, nodeKey_import ctxOf imports q g imp h1 himp⟩
    | none => exact ⟨q, hq, nodeKey_unknown ctxOf imports q g h1 himp⟩

theorem ReachFrom_embed (ctxOf : String → Dict (List String)) (imports : Dict ImportedFragment)
    (S1 S2 : List (String × String))
    (hS : ∀ m ∈ S2, ReachFrom ctxOf imports S1 m) :
    ∀ n, ReachFrom ctxOf imports S2 n → ReachFrom ctxOf imports S1 n := by
  intro n h
  induction h with
  | base hm => exact hS _ hm
  | step hr hc ih => exact ReachFrom.step ih hc

theorem ReachFrom_mono (ctxOf : String → Dict (List String)) (imports : Dict ImportedFragment)
    (S1 S2 : List (String × String)) (hsub : ∀ m ∈ S2, m ∈ S1) :
    ∀ n, ReachFrom ctxOf imports S2 n → ReachFrom ctxOf imports S1 n :=
  ReachFrom_embed ctxOf imports S1 S2 (fun m hm => ReachFrom.base (hsub m hm))

/-- Every node reachable from colon-free start nodes is colon-free. -/
theorem ReachFrom_good (ctxOf : String → Dict (List String)) (imports : Dict ImportedFragment)
    (Himp : ∀ fn imp, imports.get fn = some imp →
        colonFree imp.path = true ∧ ctxOf imp.path = imp.context.fragmentDeps)
    (Hctx : ∀ p f l, (ctxOf p).get f = some l → ∀ x ∈ l, colonFree x = true)
    (start : List (String × String))
    (hs : ∀ m ∈ start, colonFree m.1 = true ∧ colonFree m.2 = true) :
    ∀ n, ReachFrom ctxOf imports start n → colonFree n.1 = true ∧ colonFree n.2 = true := by
  intro n h
  induction h with
  | base hm => exact hs _ hm
  | step hr hc ih =>
    rename_i n2 c
    cases hget : (ctxOf n2.1).get n2.2 with
    | some l =>
      rw [nodeChildren_local ctxOf imports n2.1 n2.2 l hget] at hc
      simp only [List.mem_map] at hc
      obtain ⟨d, hd, rfl⟩ := hc
      exact ⟨ih.1, Hctx n2.1 n2.2 l hget d hd⟩
    | none =>
      cases himp : imports.get n2.2 with
      | some imp =>
        rw [nodeChildren_import ctxOf imports n2.1 n2.2 imp hget himp] at hc
        simp only [List.mem_map] at hc
        obtain ⟨d, hd, rfl⟩ := hc
        obtain ⟨hpath, hcoh⟩ := Himp n2.2 imp himp
        refine ⟨hpath, ?_⟩
        rw [← hcoh] at hd
        cases hg2 : (ctxOf imp.path).get n2.2 with
        | none => rw [hg2] at hd; simp at hd
        | some l2 =>
          rw [hg2] at hd
          simp only [Option.getD_some] at hd
          exact Hctx imp.path n2.2 l2 hg2 d hd
      | none =>
        rw [nodeChildren_unknown ctxOf imports n2.1 n2.2 hget himp] at hc
        simp at hc

/-- Two nodes that record the same memo key have the same children (the
memoization of addFragmentDepsRecursive is sound). -/
theorem nodeKey_eq_children_eq (ctxOf : String → Dict (List String))
    (imports : Dict ImportedFragment)
    (Himp : ∀ fn imp, imports.get fn = some imp →
        colonFree imp.path = true ∧ ctxOf imp.path = imp.context.fragmentDeps)
    (p f p' f' : String)
    (hp : colonFree p = true) (hf : colonFree f = true)
    (hp' : colonFree p' = true) (hf' : colonFree f' = true)
    (h : nodeKey ctxOf imports p f = nodeKey ctxOf imports p' f') :
    nodeChildren ctxOf imports p f = nodeChildren ctxOf imports p' f' := by
  cases h1 : (ctxOf p).hasKey f with
  | true =>
    obtain ⟨l, hget⟩ := dict_get_of_hasKey _ _ h1
    rw [nodeKey_local ctxOf imports p f h1] at h
    cases h2 : (ctxOf p').hasKey f' with
    | true =>
      rw [nodeKey_local ctxOf imports p' f' h2] at h
      obtain ⟨hpp, hff⟩ := colonFree_key_inj p f p' f' hp hp' h
      rw [hpp, hff]
    | false =>
      cases himp : imports.get f' with
      | some imp =>
        rw [nodeKey_import ctxOf imports p' f' imp h2 himp] at h
        obtain ⟨hpimp, hcoh⟩ := Himp f' imp himp
        obtain ⟨hpp, hff⟩ := colonFree_key_inj p f imp.path f' hp hpimp h
        subst hff
        rw [nodeChildren_local ctxOf imports p f l hget,
          nodeChildren_import ctxOf imports p' f imp (dict_get_of_not_hasKey _ _ h2) himp,
          ← hcoh, ← hpp, hget]
        rfl
      | none =>
        rw [nodeKey_unknown ctxOf imports p' f' h2 himp] at h
        obtain ⟨hpp, hff⟩ := colonFree_key_inj p f p' f' hp hp' h
        subst hpp
        subst hff
        rw [h1] at h2
  | false =>
    cases himpn : imports.get f with
    | some imp =>
      rw [nodeKey_import ctxOf imports p f imp h1 himpn] at h
      obtain ⟨hpimp, hcoh⟩ := Himp f imp himpn
      cases h2 : (ctxOf p').hasKey f' with
      | true =>
        obtain ⟨l', hget'⟩ := dict_get_of_hasKey _ _ h2
        rw [nodeKey_local ctxOf imports p' f' h2] at h
        obtain ⟨hpp, hff⟩ := colonFree_key_inj imp.path f p' f' hpimp hp' h
        subst hff
        rw [nodeChildren_local ctxOf imports p' f l' hget',
          nodeChildren_import ctxOf imports p f imp (dict_get_of_not_hasKey _ _ h1) himpn,
          ← hcoh, hpp, hget']
        rfl
      | false =>
        cases himp' : imports.get f' with
        | some imp' =>
          rw [nodeKey_import ctxOf imports p' f' imp' h2 himp'] at h
          obtain ⟨hpimp', hcoh'⟩ := Himp f' imp' himp'
          obtain ⟨hpp, hff⟩ := colonFree_key_inj imp.path f imp'.path f' hpimp hpimp' h
          subst hff
          rw [himpn] at himp'
          cases himp'
          rw [nodeChildren_import ctxOf imports p f imp (dict_get_of_not_hasKey _ _ h1) himpn,
            nodeChildren_import ctxOf imports p' f imp (dict_get_of_not_hasKey _ _ h2) himpn]
        | none =>
          rw [nodeKey_unknown ctxOf imports p' f' h2 himp'] at h
          obtain ⟨hpp, hff⟩ := colonFree_key_inj imp.path f p' f' hpimp hp' h
          subst hff
          rw [himpn] at himp'
          cases himp'
    | none =>
      rw [nodeKey_unknown ctxOf imports p f h1 himpn] at h
      cases h2 : (ctxOf p').hasKey f' with
      | true =>
        rw [nodeKey_local ctxOf imports p' f' h2] at h
        obtain ⟨hpp, hff⟩ := colonFree_key_inj p f p' f' hp hp' h
        subst hpp
        subst hff
        rw [h2] at h1
      | false =>
        cases himp' : imports.get f' with
        | some imp' =>
          rw [nodeKey_import ctxOf imports p' f' imp' h2 himp'] at h
          obtain ⟨hpimp', hcoh'⟩ := Himp f' imp' himp'
          obtain ⟨hpp, hff⟩ := colonFree_key_inj p f imp'.path f' hp hpimp' h
          subst hff
          rw [himpn] at himp'
          cases himp'
        | none =>
          rw [nodeKey_unknown ctxOf imports p' f' h2 himp'] at h
          obtain ⟨hpp, hff⟩ := colonFree_key_inj p f p' f' hp hp' h
          subst hpp
          subst hff
          rfl

/-- What collectDepNames records: the second component of each key (the keys
are colon-free paths joined to colon-free names). -/
theorem collectDepNames_spec :
    ∀ (keys : List String) (acc : Dict Bool)
      (Hk : ∀ k ∈ keys, ∃ q g, colonFree q = true ∧ colonFree g = true ∧ k = q ++ ":" ++ g)
      (nm : String),
      (collectDepNames keys acc).hasKey nm = true ↔
        acc.hasKey nm = true
        ∨ ∃ q, colonFree q = true ∧ colonFree nm = true ∧ (q ++ ":" ++ nm) ∈ keys := by
  intro keys
  induction keys with
  | nil =>
    intro acc _ nm
    simp [collectDepNames]
  | cons k rest ih =>
    intro acc Hk nm
    obtain ⟨q, g, hq, hg, hk⟩ := Hk k (by simp)
    have hstep : collectDepNames (k :: rest) acc = collectDepNames rest (acc.set g true) := by
      simp only [collectDepNames, List.foldl_cons]
      rw [hk, jsSplit_key q g hq hg]
    rw [hstep, ih (acc.set g true) (fun k2 h2 => Hk k2 (by simp [h2])) nm]
    constructor
    · rintro (h1 | ⟨q2, hq2, hnm2, hmem⟩)
      · rcases dict_hasKey_set_elim acc g nm true h1 with he | ha
        · subst he
          exact Or.inr ⟨q, hq, hg, by simp [hk]⟩
        · exact Or.inl ha
      · exact Or.inr ⟨q2, hq2, hnm2, by simp [hmem]⟩
    · rintro (h1 | ⟨q2, hq2, hnm2, hmem⟩)
      · exact Or.inl (dict_hasKey_set_mono acc g nm true h1)
      · rcases List.mem_cons.mp hmem with he | hm
        · rw [hk] at he
          obtain ⟨hq3, hnm3⟩ := colonFree_key_inj q2 nm q g hq2 hq he
          subst hnm3
          exact Or.inl (dict_hasKey_set_self acc nm true)
        · exact Or.inr ⟨q2, hq2, hnm2, hm⟩

/-- The recorded-keys invariants of one addFragmentDepsRecursive call: the
result keeps the keys it was given; every pending fragment's memo key is
recorded; every recorded key is the memo key of a node reachable from the
pending nodes; and every newly recorded key is closed (all children of any
node bearing that key are recorded too). -/
theorem afdr_spec (ctxOf : String → Dict (List String)) (imports : Dict ImportedFragment)
    (Himp : ∀ fn imp, imports.get fn = some imp →
        colonFree imp.path = true ∧ ctxOf imp.path = imp.context.fragmentDeps)
    (Hctx : ∀ p f l, (ctxOf p).get f = some l → ∀ x ∈ l, colonFree x = true) :
    ∀ (fuel : Nat) (pending : List String) (deps : Dict Bool) (path : String) (out : Dict Bool),
      colonFree path = true →
      (∀ f ∈ pending, colonFree f = true) →
      addFragmentDepsRecursive fuel deps pending (ctxOf path) imports path = some out →
      (∀ k, deps.hasKey k = true → out.hasKey k = true)
      ∧ (∀ f ∈ pending, out.hasKey (nodeKey ctxOf imports path f) = true)
      ∧ (∀ k, out.hasKey k = true → deps.hasKey k = true ∨
          ∃ q g, colonFree q = true ∧ colonFree g = true
            ∧ ReachFrom ctxOf imports (pending.map (fun f => (path, f))) (q, g)
            ∧ k = nodeKey ctxOf imports q g)
      ∧ (∀ q g, colonFree q = true → colonFree g = true →
          out.hasKey (nodeKey ctxOf imports q g) = true →
          deps.hasKey (nodeKey ctxOf imports q g) = true ∨
          ∀ c ∈ nodeChildren ctxOf imports q g, out.hasKey (nodeKey ctxOf imports c.1 c.2) = true) := by
  intro fuel
  induction fuel with
  | zero =>
    intro pending deps path out hp hpend h
    cases pending with
    | nil =>
      simp only [addFragmentDepsRecursive] at h
      cases h
      refine ⟨fun k hk => hk, ?_, fun k hk => Or.inl hk, fun q g _ _ hk => Or.inl hk⟩
      intro f hf
      exact absurd hf (List.not_mem_nil f)
    | cons frag rest =>
      simp only [addFragmentDepsRecursive] at h
      cases h
  | succ fuel ih =>
    intro pending deps path out hp hpend h
    cases pending with
    | nil =>
      simp only [addFragmentDepsRecursive] at h
      cases h
      refine ⟨fun k hk => hk, ?_, fun k hk => Or.inl hk, fun q g _ _ hk => Or.inl hk⟩
      intro f hf
      exact absurd hf (List.not_mem_nil f)
    | cons frag rest =>
      have hfrag : colonFree frag = true := hpend frag (by simp)
      have hrest : ∀ f ∈ rest, colonFree f = true := fun f hf => hpend f (by simp [hf])
      have hsub : ∀ m ∈ rest.map (fun f => (path, f)),
          m ∈ (frag :: rest).map (fun f => (path, f)) := by
        intro m hm
        simp only [List.mem_map] at hm ⊢
        obtain ⟨d, hd, rfl⟩ := hm
        exact ⟨d, by simp [hd], rfl⟩
      have hbase : (path, frag) ∈ (frag :: rest).map (fun f => (path, f)) :=
        List.mem_map.mpr ⟨frag, by simp, rfl⟩
      simp only [addFragmentDepsRecursive] at h
      split at h
      · -- the fragment is in the current dependency map
        rename_i moreDeps hget
        have hhk : (ctxOf path).hasKey frag = true := by
          simp [Dict.hasKey, hget]
        have hkey : nodeKey ctxOf imports path frag = path ++ ":" ++ frag :=
          nodeKey_local ctxOf imports path frag hhk
        have hch : nodeChildren ctxOf imports path frag = moreDeps.map (fun d => (path, d)) :=
          nodeChildren_local ctxOf imports path frag moreDeps hget
        split at h
        · rename_i hmemo
          obtain ⟨m1, m2, m3, m4⟩ := ih rest deps path out hp hrest h
          refine ⟨m1, ?_, ?_, m4⟩
          · intro f hf
            rcases List.mem_cons.mp hf with he | hm
            · subst he
              rw [hkey]
              exact m1 _ hmemo
            · exact m2 f hm
          · intro k hk
            rcases m3 k hk with h1 | ⟨q, g, hq, hg, hr, hkk⟩
            · exact Or.inl h1
            · exact Or.inr ⟨q, g, hq, hg,
                ReachFrom_mono ctxOf imports _ _ hsub _ hr, hkk⟩
        · rename_i hmemo
          split at h
          · cases h
          · rename_i deps2 hinner
            have hmore : ∀ f ∈ moreDeps, colonFree f = true :=
              fun f hf => Hctx path frag moreDeps hget f hf
            obtain ⟨a1, a2, a3, a4⟩ :=
              ih moreDeps (deps.set (path ++ ":" ++ frag) true) path deps2 hp hmore hinner
            obtain ⟨b1, b2, b3, b4⟩ := ih rest deps2 path out hp hrest h
            have hchstart : ∀ m ∈ moreDeps.map (fun f => (path, f)),
                ReachFrom ctxOf imports ((frag :: rest).map (fun f => (path, f))) m := by
              intro m hm
              simp only [List.mem_map] at hm
              obtain ⟨d, hd, rfl⟩ := hm
              refine ReachFrom.step (ReachFrom.base hbase) ?_
              show (path, d) ∈ nodeChildren ctxOf imports path frag
              rw [hch]
              exact List.mem_map.mpr ⟨d, hd, rfl⟩
            refine ⟨?_, ?_, ?_, ?_⟩
            · intro k hk
              exact b1 k (a1 k (dict_hasKey_set_mono deps _ k true hk))
            · intro f hf
              rcases List.mem_cons.mp hf with he | hm
              · subst he
                rw [hkey]
                exact b1 _ (a1 _ (dict_hasKey_set_self deps _ true))
              · exact b2 f hm
            · intro k hk
              rcases b3 k hk with h1 | ⟨q, g, hq, hg, hr, hkk⟩
              · rcases a3 k h1 with h2 | ⟨q, g, hq, hg, hr, hkk⟩
                · rcases dict_hasKey_set_elim deps _ k true h2 with he | hd
                  · right
                    refine ⟨path, frag, hp, hfrag, ReachFrom.base hbase, ?_⟩
                    rw [hkey, he]
                  · exact Or.inl hd
                · right
                  exact ⟨q, g, hq, hg,
                    ReachFrom_embed ctxOf imports _ _ hchstart _ hr, hkk⟩
              · right
                exact ⟨q, g, hq, hg, ReachFrom_mono ctxOf imports _ _ hsub _ hr, hkk⟩
            · intro q g hq hg hk
              rcases b4 q g hq hg hk with h1 | hclosed
              · rcases a4 q g hq hg h1 with h2 | hclosed2
                · rcases dict_hasKey_set_elim deps _ _ true h2 with he | hd
                  · right
                    have hkeyeq : nodeKey ctxOf imports q g = nodeKey ctxOf imports path frag := by
                      rw [hkey]
                      exact he
                    have hcheq := nodeKey_eq_children_eq ctxOf imports Himp q g path frag
                      hq hg hp hfrag hkeyeq
                    rw [hcheq, hch]
                    intro c hc
                    simp only [List.mem_map] at hc
                    obtain ⟨d, hd, rfl⟩ := hc
                    exact b1 _ (a2 d hd)
                  · exact Or.inl hd
                · right
                  intro c hc
                  exact b1 _ (hclosed2 c hc)
              · exact Or.inr hclosed
      · -- the fragment is not in the current map
        rename_i hgetn
        have hhk : (ctxOf path).hasKey frag = false := by
          simp [Dict.hasKey, hgetn]
        split at h
        · -- it is an imported fragment
          rename_i imp himp
          obtain ⟨himpPath, hcoh⟩ := Himp frag imp himp
          have hkey : nodeKey ctxOf imports path frag = imp.path ++ ":" ++ frag :=
            nodeKey_import ctxOf imports path frag imp hhk himp
          have hch : nodeChildren ctxOf imports path frag
              = (((ctxOf imp.path).get frag).getD []).map (fun d => (imp.path, d)) := by
            rw [nodeChildren_import ctxOf imports path frag imp hgetn himp, ← hcoh]
          split at h
          · rename_i hmemo
            obtain ⟨m1, m2, m3, m4⟩ := ih rest deps path out hp hrest h
            refine ⟨m1, ?_, ?_, m4⟩
            · intro f hf
              rcases List.mem_cons.mp hf with he | hm
              · subst he
                rw [hkey]
                exact m1 _ hmemo
              · exact m2 f hm
            · intro k hk
              rcases m3 k hk with h1 | ⟨q, g, hq, hg, hr, hkk⟩
              · exact Or.inl h1
              · exact Or.inr ⟨q, g, hq, hg,
                  ReachFrom_mono ctxOf imports _ _ hsub _ hr, hkk⟩
          · rename_i hmemo
            split at h
            · cases h
            · rename_i deps2 hinner
              rw [← hcoh] at hinner
              have hpend2 : ∀ f ∈ ((ctxOf imp.path).get frag).getD [], colonFree f = true := by
                cases hg2 : (ctxOf imp.path).get frag with
                | none => simp
                | some l =>
                  simp only [Option.getD_some]
                  exact fun x hx => Hctx imp.path frag l hg2 x hx
              obtain ⟨a1, a2, a3, a4⟩ :=
                ih (((ctxOf imp.path).get frag).getD [])
                  (deps.set (imp.path ++ ":" ++ frag) true) imp.path deps2 himpPath hpend2 hinner
              obtain ⟨b1, b2, b3, b4⟩ := ih rest deps2 path out hp hrest h
              have hchstart : ∀ m ∈ (((ctxOf imp.path).get frag).getD []).map
                    (fun f => (imp.path, f)),
                  ReachFrom ctxOf imports ((frag :: rest).map (fun f => (path, f))) m := by
                intro m hm
                simp only [List.mem_map] at hm
                obtain ⟨d, hd, rfl⟩ := hm
                refine ReachFrom.step (ReachFrom.base hbase) ?_
                show (imp.path, d) ∈ nodeChildren ctxOf imports path frag
                rw [hch]
                exact List.mem_map.mpr ⟨d, hd, rfl⟩
              refine ⟨?_, ?_, ?_, ?_⟩
              · intro k hk
                exact b1 k (a1 k (dict_hasKey_set_mono deps _ k true hk))
              · intro f hf
                rcases List.mem_cons.mp hf with he | hm
                · subst he
                  rw [hkey]
                  exact b1 _ (a1 _ (dict_hasKey_set_self deps _ true))
                · exact b2 f hm
              · intro k hk
                rcases b3 k hk with h1 | ⟨q, g, hq, hg, hr, hkk⟩
                · rcases a3 k h1 with h2 | ⟨q, g, hq, hg, hr, hkk⟩
                  · rcases dict_hasKey_set_elim deps _ k true h2 with he | hd
                    · right
                      refine ⟨path, frag, hp, hfrag, ReachFrom.base hbase, ?_⟩
                      rw [hkey, he]
                    · exact Or.inl hd
                  · right
                    exact ⟨q, g, hq, hg,
                      ReachFrom_embed ctxOf imports _ _ hchstart _ hr, hkk⟩
                · right
                  exact ⟨q, g, hq, hg, ReachFrom_mono ctxOf imports _ _ hsub _ hr, hkk⟩
              · intro q g hq hg hk
                rcases b4 q g hq hg hk with h1 | hclosed
                · rcases a4 q g hq hg h1 with h2 | hclosed2
                  · rcases dict_hasKey_set_elim deps _ _ true h2 with he | hd
                    · right
                      have hkeyeq : nodeKey ctxOf imports q g
                          = nodeKey ctxOf imports path frag := by
                        rw [hkey]
                        exact he
                      have hcheq := nodeKey_eq_children_eq ctxOf imports Himp q g path frag
                        hq hg hp hfrag hkeyeq
                      rw [hcheq, hch]
                      intro c hc
                      simp only [List.mem_map] at hc
                      obtain ⟨d, hd, rfl⟩ := hc
                      exact b1 _ (a2 d hd)
                    · exact Or.inl hd
                  · right
                    intro c hc
                    exact b1 _ (hclosed2 c hc)
                · exact Or.inr hclosed
        · -- unknown fragment: recorded with no children
          rename_i himpn
          have hkey : nodeKey ctxOf imports path frag = path ++ ":" ++ frag :=
            nodeKey_unknown ctxOf imports path frag hhk himpn
          have hch : nodeChildren ctxOf imports path frag = [] :=
            nodeChildren_unknown ctxOf imports path frag hgetn himpn
          split at h
          · rename_i hmemo
            obtain ⟨m1, m2, m3, m4⟩ := ih rest deps path out hp hrest h
            refine ⟨m1, ?_, ?_, m4⟩
            · intro f hf
              rcases List.mem_cons.mp hf with he | hm
              · subst he
                rw [hkey]
                exact m1 _ hmemo
              · exact m2 f hm
            · intro k hk
              rcases m3 k hk with h1 | ⟨q, g, hq, hg, hr, hkk⟩
              · exact Or.inl h1
              · exact Or.inr ⟨q, g, hq, hg,
                  ReachFrom_mono ctxOf imports _ _ hsub _ hr, hkk⟩
          · rename_i hmemo
            obtain ⟨b1, b2, b3, b4⟩ :=
              ih rest (deps.set (path ++ ":" ++ frag) true) path out hp hrest h
            refine ⟨?_, ?_, ?_, ?_⟩
            · intro k hk
              exact b1 k (dict_hasKey_set_mono deps _ k true hk)
            · intro f hf
              rcases List.mem_cons.mp hf with he | hm
              · subst he
                rw [hkey]
                exact b1 _ (dict_hasKey_set_self deps _ true)
              · exact b2 f hm
            · intro k hk
              rcases b3 k hk with h1 | ⟨q, g, hq, hg, hr, hkk⟩
              · rcases dict_hasKey_set_elim deps _ k true h1 with he | hd
                · right
                  refine ⟨path, frag, hp, hfrag, ReachFrom.base hbase, ?_⟩
                  rw [hkey, he]
                · exact Or.inl hd
              · right
                exact ⟨q, g, hq, hg, ReachFrom_mono ctxOf imports _ _ hsub _ hr, hkk⟩
            · intro q g hq hg hk
              rcases b4 q g hq hg hk with h1 | hclosed
              · rcases dict_hasKey_set_elim deps _ _ true h1 with he | hd
                · right
                  have hkeyeq : nodeKey ctxOf imports q g
                      = nodeKey ctxOf imports path frag := by
                    rw [hkey]
                    exact he
                  have hcheq := nodeKey_eq_children_eq ctxOf imports Himp q g path frag
                    hq hg hp hfrag hkeyeq
                  rw [hcheq, hch]
                  intro c hc
                  exact absurd hc (List.not_mem_nil c)
                · exact Or.inl hd
              · exact Or.inr hclosed

/-- The key set of one fresh addFragmentDepsRecursive run from a single root:
exactly the memo keys of the nodes reachable from ("..", root). -/
theorem afdr_run_keys (ctxOf : String → Dict (List String)) (imports : Dict ImportedFragment)
    (Himp : ∀ fn imp, imports.get fn = some imp →
        colonFree imp.path = true ∧ ctxOf imp.path = imp.context.fragmentDeps)
    (Hctx : ∀ p f l, (ctxOf p).get f = some l → ∀ x ∈ l, colonFree x = true)
    (fuel : Nat) (root : String) (out : Dict Bool)
    (hroot : colonFree root = true)
    (h : addFragmentDepsRecursive fuel [] [root] (ctxOf "..") imports ".." = some out) :
    ∀ k, out.hasKey k = true ↔
      ∃ q g, colonFree q = true ∧ colonFree g = true
        ∧ ReachFrom ctxOf imports [("..", root)] (q, g)
        ∧ k = nodeKey ctxOf imports q g := by
  have hdd : colonFree ".." = true := by decide
  obtain ⟨m1, m2, m3, m4⟩ := afdr_spec ctxOf imports Himp Hctx fuel [root] [] ".." out hdd
    (by intro f hf; simp only [List.mem_singleton] at hf; subst hf; exact hroot) h
  have hcomp : ∀ n, ReachFrom ctxOf imports [("..", root)] n →
      out.hasKey (nodeKey ctxOf imports n.1 n.2) = true := by
    intro n hn
    induction hn with
    | base hm =>
      simp only [List.mem_singleton] at hm
      subst hm
      exact m2 root (by simp)
    | step hr hc ihc =>
      rename_i n2 c
      have hgood := ReachFrom_good ctxOf imports Himp Hctx [("..", root)]
        (by intro m hm; simp only [List.mem_singleton] at hm; subst hm; exact ⟨hdd, hroot⟩)
        n2 hr
      rcases m4 n2.1 n2.2 hgood.1 hgood.2 ihc with h1 | hclosed
      · simp [Dict.hasKey, Dict.get] at h1
      · exact hclosed c hc
  intro k
  constructor
  · intro hk
    rcases m3 k hk with h1 | ⟨q, g, hq, hg, hr, hkk⟩
    · simp [Dict.hasKey, Dict.get] at h1
    · exact ⟨q, g, hq, hg, hr, hkk⟩
  · rintro ⟨q, g, hq, hg, hr, rfl⟩
    exact hcomp (q, g) hr

/-- The name set opDepNamesGo accumulates: one name per node reachable from
the processed roots (plus whatever the accumulator already held). -/
theorem opDepNamesGo_spec (ctxOf : String → Dict (List String)) (imports : Dict ImportedFragment)
    (Himp : ∀ fn imp, imports.get fn = some imp →
        colonFree imp.path = true ∧ ctxOf imp.path = imp.context.fragmentDeps)
    (Hctx : ∀ p f l, (ctxOf p).get f = some l → ∀ x ∈ l, colonFree x = true)
    (fuel : Nat) :
    ∀ (roots : List String) (acc : Dict Bool) (names : List String),
      (∀ f ∈ roots, colonFree f = true) →
      opDepNamesGo fuel (ctxOf "..") imports roots acc = .ok names →
      ∀ nm, nm ∈ names ↔
        (acc.hasKey nm = true
         ∨ ∃ root q, root ∈ roots ∧ ReachFrom ctxOf imports [("..", root)] (q, nm)) := by
  intro roots
  induction roots with
  | nil =>
    intro acc names hg hok nm
    simp only [opDepNamesGo] at hok
    cases hok
    rw [mem_sortStrings, dict_mem_keys]
    simp
  | cons root rest ihr =>
    intro acc names hg hok nm
    have hroot : colonFree root = true := hg root (by simp)
    simp only [opDepNamesGo] at hok
    split at hok
    · cases hok
    · rename_i deps hrun
      have hkeys := afdr_run_keys ctxOf imports Himp Hctx fuel root deps hroot hrun
      rw [ihr _ names (fun f hf => hg f (by simp [hf])) hok nm]
      have Hgoodkeys : ∀ k ∈ sortStrings (Dict.keys deps),
          ∃ q g, colonFree q = true ∧ colonFree g = true ∧ k = q ++ ":" ++ g := by
        intro k hk
        rw [mem_sortStrings, dict_mem_keys] at hk
        obtain ⟨q, g, hq, hg2, hr, hkk⟩ := (hkeys k).mp hk
        obtain ⟨q2, hq2, hshape⟩ := nodeKey_shape ctxOf imports Himp q g hq
        exact ⟨q2, g, hq2, hg2, by rw [hkk, hshape]⟩
      rw [collectDepNames_spec (sortStrings (Dict.keys deps)) acc Hgoodkeys nm]
      constructor
      · rintro ((h1 | ⟨q, hq, hnm, hmem⟩) | ⟨root2, q, hmem2, hr2⟩)
        · exact Or.inl h1
        · rw [mem_sortStrings, dict_mem_keys] at hmem
          obtain ⟨q2, g2, hq2, hg2, hr2, hkk2⟩ := (hkeys _).mp hmem
          obtain ⟨q3, hq3, hshape⟩ := nodeKey_shape ctxOf imports Himp q2 g2 hq2
          rw [hshape] at hkk2
          obtain ⟨hqq, hgg⟩ := colonFree_key_inj q nm q3 g2 hq hq3 hkk2
          subst hgg
          exact Or.inr ⟨root, q2, by simp, hr2⟩
        · exact Or.inr ⟨root2, q, by simp [hmem2], hr2⟩
      · rintro (h1 | ⟨root2, q, hmem2, hr2⟩)
        · exact Or.inl (Or.inl h1)
        · rcases List.mem_cons.mp hmem2 with he | hm
          · subst he
            left
            right
            have hgood := ReachFrom_good ctxOf imports Himp Hctx [("..", root2)]
              (by intro m hm
                  simp only [List.mem_singleton] at hm
                  subst hm
                  exact ⟨(by decide : colonFree ".." = true), hg root2 (by simp)⟩)
              (q, nm) hr2
            have hmemk : deps.hasKey (nodeKey ctxOf imports q nm) = true :=
              (hkeys _).mpr ⟨q, nm, hgood.1, hgood.2, hr2, rfl⟩
            obtain ⟨q2, hq2, hshape⟩ := nodeKey_shape ctxOf imports Himp q nm hgood.1
            refine ⟨q2, hq2, hgood.2, ?_⟩
            rw [mem_sortStrings, dict_mem_keys, ← hshape]
            exact hmemk
          · exact Or.inr ⟨root2, q, hm, hr2⟩

/-- The claim's closure (Reach, rooted at "..") is reachability from the
singleton starts. -/
theorem reach_iff_reachFrom (ctxOf : String → Dict (List String))
    (imports : Dict ImportedFragment) (roots : List String) (n : String × String) :
    Reach ctxOf imports roots n ↔ ∃ f, f ∈ roots ∧ ReachFrom ctxOf imports [("..", f)] n := by
  constructor
  · intro h
    induction h with
    | root hm => exact ⟨_, hm, ReachFrom.base (by simp)⟩
    | step hr hc ihr =>
      obtain ⟨f, hf, hrf⟩ := ihr
      exact ⟨f, hf, ReachFrom.step hrf hc⟩
  · rintro ⟨f, hf, hrf⟩
    induction hrf with
    | base hm =>
      simp only [List.mem_singleton] at hm
      rw [hm]
      exact Reach.root hf
    | step hr hc ihr => exact Reach.step ihr hc

/-- C5: for every operation, the set of fragment names its emitted file
imports and concatenates (the per-operation dependency collection of
generate) equals the transitive closure of the operation's direct and
indirect fragment spreads, computed through the local fragment-deps map and
the import map: a name is collected iff some node carrying it is in the
closure.  `ctxOf` ties the maps threaded through the traversal together:
".." is the local fragment-deps map and each import path is that import
context's map; paths and fragment names are colon-free, as the memo-key
encoding requires. -/
theorem operation_dep_names_closure
    (ctxOf : String → Dict (List String)) (imports : Dict ImportedFragment)
    (Himp : ∀ fn imp, imports.get fn = some imp →
        colonFree imp.path = true ∧ ctxOf imp.path = imp.context.fragmentDeps)
    (Hctx : ∀ p f l, (ctxOf p).get f = some l → ∀ x ∈ l, colonFree x = true)
    (fuel : Nat) (op : OperationDef) (fragsFromOp : Dict Bool) (names : List String)
    (Hroots : ∀ f, fragsFromOp.hasKey f = true → colonFree f = true)
    (hdeps : extractFragmentDeps fuel (some op.selectionSet) [] = .ok fragsFromOp)
    (hok : operationDepNames fuel op (ctxOf "..") imports = .ok names) :
    ∀ nm, nm ∈ names ↔ ∃ p, Reach ctxOf imports fragsFromOp.keys (p, nm) := by
  intro nm
  unfold operationDepNames at hok
  rw [hdeps] at hok
  have hroots2 : ∀ f ∈ sortStrings fragsFromOp.keys, colonFree f = true := by
    intro f hf
    rw [mem_sortStrings, dict_mem_keys] at hf
    exact Hroots f hf
  rw [opDepNamesGo_spec ctxOf imports Himp Hctx fuel _ [] names hroots2 hok nm]
  constructor
  · rintro (h1 | ⟨root, q, hmem, hr⟩)
    · simp [Dict.hasKey, Dict.get] at h1
    · refine ⟨q, ?_⟩
      rw [mem_sortStrings] at hmem
      exact (reach_iff_reachFrom ctxOf imports fragsFromOp.keys (q, nm)).mpr ⟨root, hmem, hr⟩
  · rintro ⟨q, hreach⟩
    obtain ⟨f, hf, hrf⟩ := (reach_iff_reachFrom ctxOf imports fragsFromOp.keys (q, nm)).mp hreach
    exact Or.inr ⟨f, q, (mem_sortStrings f _).mpr hf, hrf⟩

set_option maxRecDepth 8000 in
/-- C5 witness: at the concrete fixture the collected names are A, B (a
transitive local dependency) and C (imported), and the closure is checked at
the member "B" and the imported member "C". -/
theorem operation_dep_names_closure_witness :
    ("B" ∈ ["A", "B", "C"] ↔ ∃ p, Reach exCtxOf exImports ["A", "C"] (p, "B"))
    ∧ ("C" ∈ ["A", "B", "C"] ↔ ∃ p, Reach exCtxOf exImports ["A", "C"] (p, "C")) := by
  have Himp : ∀ fn imp, exImports.get fn = some imp →
      colonFree imp.path = true ∧ exCtxOf imp.path = imp.context.fragmentDeps := by
    intro fn imp h
    unfold exImports Dict.get at h
    split at h
    · cases h
      exact ⟨by decide, rfl⟩
    · cases h
  have Hctx : ∀ p f l, (exCtxOf p).get f = some l → ∀ x ∈ l, colonFree x = true := by
    intro p f l h x hx
    unfold exCtxOf at h
    by_cases hp : p = ".."
    · rw [if_pos hp] at h
      unfold Dict.get at h
      split at h
      · cases h
        simp only [List.mem_singleton] at hx
        subst hx
        decide
      · unfold Dict.get at h
        split at h
        · cases h
          exact absurd hx (List.not_mem_nil x)
        · cases h
    · rw [if_neg hp] at h
      by_cases hp2 : p = "P"
      · rw [if_pos hp2] at h
        unfold Dict.get at h
        split at h
        · cases h
          exact absurd hx (List.not_mem_nil x)
        · cases h
      · rw [if_neg hp2] at h
        cases h
  have Hroots : ∀ f, Dict.hasKey [("A", true), ("C", true)] f = true → colonFree f = true := by
    intro f h
    by_cases h1 : f = "A"
    · subst h1
      decide
    · by_cases h2 : f = "C"
      · subst h2
        decide
      · have hA : ¬ ("A" = f) := fun hh => h1 hh.symm
        have hC : ¬ ("C" = f) := fun hh => h2 hh.symm
        simp [Dict.hasKey, Dict.get, hA, hC] at h
  have hmain := operation_dep_names_closure exCtxOf exImports Himp Hctx 10 exOp
    [("A", true), ("C", true)] ["A", "B", "C"] Hroots rfl rfl
  exact ⟨hmain "B", hmain "C"⟩

end Codegen
